import Mathlib

/-!
Verification of the consumer-group coordination core (pkg/kgo/consume_group.go).

This file shallowly embeds the data model and the operations of the group
consumer — the offset ledger, the commit pipeline, assignment diffing, the
revoke sequencer, offset fetching, leaving, and subscription reconciliation —
as executable Lean definitions, and proves the specified properties about
them.

Go maps are embedded as association lists (with no-duplicate-key hypotheses
where a claim needs them), int32/int64 fields as `Int`, and channels /
goroutines of the commit pipeline as a small-step interleaving semantics.
-/

namespace Kgo

/-- Association-list lookup keyed by decidable equality (embeds a Go map read:
`m[k]` returning the value and an existence flag). -/
def alookup {α β : Type} [DecidableEq α] (k : α) : List (α × β) → Option β
  | [] => none
  | kv :: rest => if kv.1 = k then some kv.2 else alookup k rest

/-- Association-list update of an existing key (embeds `m[k] = v` when `k` is
already present; entries with other keys are untouched). -/
def aset {α β : Type} [DecidableEq α] (k : α) (v : β) (m : List (α × β)) : List (α × β) :=
  m.map fun kv => if kv.1 = k then (k, v) else kv

/-- Association-list insert-or-replace (embeds `m[k] = v` on a Go map: replaces
the entry when the key exists, otherwise adds it). -/
def ains {α β : Type} [DecidableEq α] (k : α) (v : β) (m : List (α × β)) : List (α × β) :=
  if (alookup k m).isSome then aset k v m else m ++ [(k, v)]

/-- Association-list key removal (embeds `delete(m, k)`). -/
def aerase {α β : Type} [DecidableEq α] (k : α) (m : List (α × β)) : List (α × β) :=
  m.filter fun kv => kv.1 ≠ k

theorem alookup_aset_self {α β : Type} [DecidableEq α] (k : α) (v : β) (m : List (α × β)) :
    alookup k (aset k v m) = if (alookup k m).isSome then some v else none := by
  induction m with
  | nil => simp [alookup, aset]
  | cons kv rest ih =>
    simp only [aset, List.map_cons] at ih ⊢
    by_cases h : kv.1 = k
    · simp [alookup, h]
    · simp only [if_neg h, alookup, h, ite_false]
      exact ih

theorem alookup_aset_ne {α β : Type} [DecidableEq α] (k k' : α) (v : β) (m : List (α × β))
    (h : k ≠ k') : alookup k' (aset k v m) = alookup k' m := by
  induction m with
  | nil => simp [alookup, aset]
  | cons kv rest ih =>
    simp only [aset, List.map_cons] at ih ⊢
    by_cases hk : kv.1 = k
    · simpa [alookup, hk, h] using ih
    · simp only [alookup, if_neg hk]
      rw [ih]

/-- EpochOffset combines a record offset with the leader epoch the broker was
at when the record was written. -/
structure EpochOffset where
  epoch : Int
  offset : Int
deriving DecidableEq, Repr

/-- The `uncommit` ledger entry: the head (just past the latest polled record)
and the latest committed position for one partition. -/
structure Uncommit where
  head : EpochOffset
  committed : EpochOffset
deriving DecidableEq, Repr

/-- The offset ledger: topic → partition → uncommit.  `Option Uncommitted`
models the `g.uncommitted` field, `none` being the nil map. -/
abbrev Uncommitted := List (String × List (Int × Uncommit))

/-- Lookup one partition's ledger entry. -/
def lookup2 (unc : Uncommitted) (t : String) (p : Int) : Option Uncommit :=
  (alookup t unc).bind fun parts => alookup p parts

/-! ## OffsetCommit request and response shapes (kmsg, fields used here) -/

structure OffsetCommitRequestTopicPartition where
  partition : Int
  offset : Int
  leaderEpoch : Int
  metadata : String
deriving DecidableEq, Repr

structure OffsetCommitRequestTopic where
  topic : String
  partitions : List OffsetCommitRequestTopicPartition
deriving DecidableEq, Repr

structure OffsetCommitRequest where
  group : String
  generation : Int
  memberID : String
  instanceID : Option String
  topics : List OffsetCommitRequestTopic
deriving DecidableEq, Repr

structure OffsetCommitResponseTopicPartition where
  partition : Int
  errorCode : Int
deriving DecidableEq, Repr

structure OffsetCommitResponseTopic where
  topic : String
  partitions : List OffsetCommitResponseTopicPartition
deriving DecidableEq, Repr

structure OffsetCommitResponse where
  topics : List OffsetCommitResponseTopic
deriving DecidableEq, Repr

/-- TxnOffsetCommit request (kmsg).  Its topic/partition payload shapes are
field-for-field identical to the OffsetCommit ones, so they are reused. -/
structure TxnOffsetCommitRequest where
  transactionalID : String
  group : String
  producerID : Int
  producerEpoch : Int
  topics : List OffsetCommitRequestTopic
deriving DecidableEq, Repr

structure TxnOffsetCommitResponse where
  topics : List OffsetCommitResponseTopic
deriving DecidableEq, Repr

/-! ## updateCommitted / updateCommittedTxn -/

/-- Sort request topics by name (`sort.Slice` on `Topic <`). -/
def sortReqTopics (ts : List OffsetCommitRequestTopic) : List OffsetCommitRequestTopic :=
  List.insertionSort (fun a b => a.topic ≤ b.topic) ts

/-- Sort response topics by name (`sort.Slice` on `Topic <`). -/
def sortRespTopics (ts : List OffsetCommitResponseTopic) : List OffsetCommitResponseTopic :=
  List.insertionSort (fun a b => a.topic ≤ b.topic) ts

/-- Sort request partitions by partition id. -/
def sortReqParts (ps : List OffsetCommitRequestTopicPartition) :
    List OffsetCommitRequestTopicPartition :=
  List.insertionSort (fun a b => a.partition ≤ b.partition) ps

/-- Sort response partitions by partition id. -/
def sortRespParts (ps : List OffsetCommitResponseTopicPartition) :
    List OffsetCommitResponseTopicPartition :=
  List.insertionSort (fun a b => a.partition ≤ b.partition) ps

/-- Inner loop body of updateCommitted: one index-paired (request partition,
response partition).  The entry is advanced only when the partition is in the
topic's ledger, the response error code is zero, and the partition ids match;
in that case `committed` becomes the request's (epoch, offset). -/
def applyPartPair (parts : List (Int × Uncommit))
    (pr : OffsetCommitRequestTopicPartition × OffsetCommitResponseTopicPartition) :
    List (Int × Uncommit) :=
  (alookup pr.2.partition parts).elim parts fun u =>
    if pr.2.errorCode ≠ 0 ∨ pr.1.partition ≠ pr.2.partition then parts
    else aset pr.2.partition { u with committed := ⟨pr.1.leaderEpoch, pr.1.offset⟩ } parts

/-- Outer loop body of updateCommitted: one index-paired (request topic,
response topic).  The topic is skipped when it is not in the ledger, the names
mismatch, or the partition counts mismatch; otherwise both partition lists are
sorted by partition id and folded pairwise. -/
def applyTopicPair (unc : Uncommitted)
    (pr : OffsetCommitRequestTopic × OffsetCommitResponseTopic) : Uncommitted :=
  (alookup pr.2.topic unc).elim unc fun parts =>
    if pr.1.topic ≠ pr.2.topic ∨ pr.1.partitions.length ≠ pr.2.partitions.length then unc
    else
      aset pr.2.topic
        (((sortReqParts pr.1.partitions).zip (sortRespParts pr.2.partitions)).foldl
          applyPartPair parts) unc

/-- Shared core of updateCommitted and updateCommittedTxn (the Go bodies are
duplicated line for line): drop the whole result on a topic-count mismatch,
else sort both topic lists by name and fold the index pairs. -/
def updateCommittedCore (u : Uncommitted) (reqTopics : List OffsetCommitRequestTopic)
    (respTopics : List OffsetCommitResponseTopic) : Uncommitted :=
  if reqTopics.length ≠ respTopics.length then u
  else ((sortReqTopics reqTopics).zip (sortRespTopics respTopics)).foldl applyTopicPair u

/-- updateCommitted: apply an OffsetCommit request/response pair to the ledger.
A request carrying a generation different from the session's current one is
dropped whole, as is a nil ledger or a topic-count mismatch. -/
def updateCommitted (generation : Int) (unc : Option Uncommitted)
    (req : OffsetCommitRequest) (resp : OffsetCommitResponse) : Option Uncommitted :=
  if req.generation ≠ generation then unc
  else
    match unc with
    | none => none
    | some u => some (updateCommittedCore u req.topics resp.topics)

/-- updateCommittedTxn: same as updateCommitted minus the generation check. -/
def updateCommittedTxn (unc : Option Uncommitted)
    (req : TxnOffsetCommitRequest) (resp : TxnOffsetCommitResponse) : Option Uncommitted :=
  match unc with
  | none => none
  | some u => some (updateCommittedCore u req.topics resp.topics)

/-! ## Specification-side description of commit application (for C3) -/

/-- Value a partition `p` receives from a list of index-paired (request
partition, response partition) entries: the request's (leader epoch, offset)
of the pair whose ids both equal `p` and whose response error code is zero. -/
def partMatchedValue
    (pairs : List (OffsetCommitRequestTopicPartition × OffsetCommitResponseTopicPartition))
    (p : Int) : Option EpochOffset :=
  pairs.findSome? fun pp =>
    if pp.2.partition = p ∧ pp.1.partition = pp.2.partition ∧ pp.2.errorCode = 0 then
      some ⟨pp.1.leaderEpoch, pp.1.offset⟩
    else none

/-- Value the partition (t, p) receives from a list of index-paired (request
topic, response topic) entries: pairs with mismatched names or partition
counts are dropped; within a matching pair both partition lists are sorted by
id and paired by index. -/
def topicMatchedValue
    (pairs : List (OffsetCommitRequestTopic × OffsetCommitResponseTopic))
    (t : String) (p : Int) : Option EpochOffset :=
  pairs.findSome? fun pr =>
    if pr.2.topic = t ∧ pr.1.topic = pr.2.topic ∧
        pr.1.partitions.length = pr.2.partitions.length then
      partMatchedValue ((sortReqParts pr.1.partitions).zip (sortRespParts pr.2.partitions)) p
    else none

/-- Specification-side description of Apply-commit-result (§4.A): sort both the
request and the response by topic and then by partition, and pair them by
index; (t, p) is advanced to the request's (epoch, offset) exactly when its
pair is fully matched and acknowledged; a topic-count mismatch drops the whole
result (value `none` means the committed state is left unadvanced). -/
def commitMatchedValue (reqTopics : List OffsetCommitRequestTopic)
    (respTopics : List OffsetCommitResponseTopic) (t : String) (p : Int) : Option EpochOffset :=
  if reqTopics.length ≠ respTopics.length then none
  else topicMatchedValue ((sortReqTopics reqTopics).zip (sortRespTopics respTopics)) t p

theorem applyPartPair_lookup_ne (parts : List (Int × Uncommit))
    (pr : OffsetCommitRequestTopicPartition × OffsetCommitResponseTopicPartition)
    (q : Int) (h : pr.2.partition ≠ q) :
    alookup q (applyPartPair parts pr) = alookup q parts := by
  unfold applyPartPair
  cases halo : alookup pr.2.partition parts with
  | none => rfl
  | some u =>
    by_cases hc : pr.2.errorCode ≠ 0 ∨ pr.1.partition ≠ pr.2.partition
    · simp [hc]
    · simp [hc, alookup_aset_ne _ _ _ _ h]

theorem foldl_applyPartPair_lookup_ne
    (pairs : List (OffsetCommitRequestTopicPartition × OffsetCommitResponseTopicPartition))
    (parts : List (Int × Uncommit)) (q : Int)
    (h : ∀ pp ∈ pairs, pp.2.partition ≠ q) :
    alookup q (pairs.foldl applyPartPair parts) = alookup q parts := by
  induction pairs generalizing parts with
  | nil => rfl
  | cons pp rest ih =>
    rw [List.foldl_cons, ih _ fun x hx => h x (List.mem_cons_of_mem _ hx),
      applyPartPair_lookup_ne _ _ _ (h pp (List.mem_cons_self _ _))]

theorem partMatchedValue_eq_none
    (pairs : List (OffsetCommitRequestTopicPartition × OffsetCommitResponseTopicPartition))
    (p : Int) (h : ∀ pp ∈ pairs, pp.2.partition ≠ p) :
    partMatchedValue pairs p = none := by
  induction pairs with
  | nil => rfl
  | cons pp rest ih =>
    have hne := h pp (List.mem_cons_self _ _)
    simp only [partMatchedValue, List.findSome?_cons] at ih ⊢
    simp only [hne, false_and, if_false]
    exact ih fun x hx => h x (List.mem_cons_of_mem _ hx)

theorem foldl_applyPartPair_lookup
    (pairs : List (OffsetCommitRequestTopicPartition × OffsetCommitResponseTopicPartition))
    (parts : List (Int × Uncommit)) (p : Int) (u : Uncommit)
    (hnd : (pairs.map fun pp => pp.2.partition).Nodup)
    (hu : alookup p parts = some u) :
    alookup p (pairs.foldl applyPartPair parts) =
      some { u with committed := (partMatchedValue pairs p).getD u.committed } := by
  induction pairs generalizing parts u with
  | nil => simpa [partMatchedValue] using hu
  | cons pp rest ih =>
    rw [List.map_cons, List.nodup_cons] at hnd
    rw [List.foldl_cons]
    by_cases hp : pp.2.partition = p
    · have hrest : ∀ x ∈ rest, x.2.partition ≠ p := by
        intro x hx hxp
        apply hnd.1
        rw [hp, ← hxp]
        exact List.mem_map_of_mem _ hx
      rw [foldl_applyPartPair_lookup_ne rest _ p hrest]
      have hrestval : partMatchedValue rest p = none := partMatchedValue_eq_none rest p hrest
      have hu' : alookup pp.2.partition parts = some u := by rw [hp]; exact hu
      unfold applyPartPair
      rw [hu', Option.elim_some]
      by_cases hc : pp.2.errorCode ≠ 0 ∨ pp.1.partition ≠ pp.2.partition
      · rw [if_pos hc, hu]
        have hval : partMatchedValue (pp :: rest) p = none := by
          simp only [partMatchedValue, List.findSome?_cons]
          have hcond : ¬(pp.2.partition = p ∧ pp.1.partition = pp.2.partition ∧
              pp.2.errorCode = 0) := by
            rcases hc with hc | hc
            · exact fun hand => hc hand.2.2
            · exact fun hand => hc hand.2.1
          rw [if_neg hcond]
          exact hrestval
        rw [hval]
        rfl
      · push_neg at hc
        rw [if_neg (by simp [hc.1, hc.2])]
        have hval : partMatchedValue (pp :: rest) p =
            some ⟨pp.1.leaderEpoch, pp.1.offset⟩ := by
          simp [partMatchedValue, List.findSome?_cons, hp, hc.1, hc.2]
        rw [hval, hp, alookup_aset_self]
        simp [hu]
    · have hlook : alookup p (applyPartPair parts pp) = some u := by
        rw [applyPartPair_lookup_ne _ _ _ hp, hu]
      have hval : partMatchedValue (pp :: rest) p = partMatchedValue rest p := by
        simp [partMatchedValue, List.findSome?_cons, hp]
      rw [hval]
      exact ih _ _ hnd.2 hlook

theorem lookup2_some_elim {unc : Uncommitted} {t : String} {p : Int} {uc : Uncommit}
    (hu : lookup2 unc t p = some uc) :
    ∃ parts, alookup t unc = some parts ∧ alookup p parts = some uc := by
  unfold lookup2 at hu
  cases h : alookup t unc with
  | none => rw [h] at hu; simp at hu
  | some parts => rw [h] at hu; exact ⟨parts, rfl, hu⟩

theorem applyTopicPair_lookup_ne (unc : Uncommitted)
    (pr : OffsetCommitRequestTopic × OffsetCommitResponseTopic)
    (s : String) (h : pr.2.topic ≠ s) :
    alookup s (applyTopicPair unc pr) = alookup s unc := by
  unfold applyTopicPair
  cases halo : alookup pr.2.topic unc with
  | none => rfl
  | some parts =>
    by_cases hc : pr.1.topic ≠ pr.2.topic ∨ pr.1.partitions.length ≠ pr.2.partitions.length
    · simp [hc]
    · simp [hc, alookup_aset_ne _ _ _ _ h]

theorem foldl_applyTopicPair_lookup_ne
    (pairs : List (OffsetCommitRequestTopic × OffsetCommitResponseTopic))
    (unc : Uncommitted) (s : String)
    (h : ∀ pr ∈ pairs, pr.2.topic ≠ s) :
    alookup s (pairs.foldl applyTopicPair unc) = alookup s unc := by
  induction pairs generalizing unc with
  | nil => rfl
  | cons pr rest ih =>
    rw [List.foldl_cons, ih _ fun x hx => h x (List.mem_cons_of_mem _ hx),
      applyTopicPair_lookup_ne _ _ _ (h pr (List.mem_cons_self _ _))]

theorem topicMatchedValue_eq_none
    (pairs : List (OffsetCommitRequestTopic × OffsetCommitResponseTopic))
    (t : String) (p : Int) (h : ∀ pr ∈ pairs, pr.2.topic ≠ t) :
    topicMatchedValue pairs t p = none := by
  induction pairs with
  | nil => rfl
  | cons pr rest ih =>
    have hne := h pr (List.mem_cons_self _ _)
    simp only [topicMatchedValue, List.findSome?_cons] at ih ⊢
    simp only [hne, false_and, if_false]
    exact ih fun x hx => h x (List.mem_cons_of_mem _ hx)

theorem foldl_applyTopicPair_lookup2
    (pairs : List (OffsetCommitRequestTopic × OffsetCommitResponseTopic))
    (unc : Uncommitted) (t : String) (p : Int) (uc : Uncommit)
    (hnd : (pairs.map fun pr => pr.2.topic).Nodup)
    (hpnd : ∀ pr ∈ pairs, ((pr.2.partitions.map fun q => q.partition)).Nodup)
    (hu : lookup2 unc t p = some uc) :
    lookup2 (pairs.foldl applyTopicPair unc) t p =
      some { uc with committed := (topicMatchedValue pairs t p).getD uc.committed } := by
  induction pairs generalizing unc uc with
  | nil => simpa [topicMatchedValue] using hu
  | cons pr rest ih =>
    rw [List.map_cons, List.nodup_cons] at hnd
    rw [List.foldl_cons]
    obtain ⟨parts, hparts, hpc⟩ := lookup2_some_elim hu
    by_cases hp : pr.2.topic = t
    · have hrest : ∀ x ∈ rest, x.2.topic ≠ t := by
        intro x hx hxt
        apply hnd.1
        rw [hp, ← hxt]
        exact List.mem_map_of_mem _ hx
      have hrestval : topicMatchedValue rest t p = none := topicMatchedValue_eq_none rest t p hrest
      have hparts' : alookup pr.2.topic unc = some parts := by rw [hp]; exact hparts
      by_cases hc : pr.1.topic ≠ pr.2.topic ∨ pr.1.partitions.length ≠ pr.2.partitions.length
      · have happ : applyTopicPair unc pr = unc := by
          unfold applyTopicPair
          rw [hparts', Option.elim_some, if_pos hc]
        have hval : topicMatchedValue (pr :: rest) t p = none := by
          simp only [topicMatchedValue, List.findSome?_cons]
          have hcond : ¬(pr.2.topic = t ∧ pr.1.topic = pr.2.topic ∧
              pr.1.partitions.length = pr.2.partitions.length) := by
            rcases hc with hc | hc
            · exact fun hand => hc hand.2.1
            · exact fun hand => hc hand.2.2
          rw [if_neg hcond]
          exact hrestval
        rw [happ, hval]
        unfold lookup2
        rw [foldl_applyTopicPair_lookup_ne rest unc t hrest, hparts]
        simpa using hpc
      · push_neg at hc
        set zipped := (sortReqParts pr.1.partitions).zip (sortRespParts pr.2.partitions) with hzip
        have happ : applyTopicPair unc pr =
            aset pr.2.topic (zipped.foldl applyPartPair parts) unc := by
          unfold applyTopicPair
          rw [hparts', Option.elim_some, if_neg (by simp [hc.1, hc.2])]
        have hlen : (sortRespParts pr.2.partitions).length ≤
            (sortReqParts pr.1.partitions).length := by
          simp [sortReqParts, sortRespParts, List.length_insertionSort, hc.2]
        have hsnd : zipped.map Prod.snd = sortRespParts pr.2.partitions := by
          rw [hzip]
          exact List.map_snd_zip _ _ hlen
        have hzn : (zipped.map fun pp => pp.2.partition).Nodup := by
          have h1 : (zipped.map fun pp => pp.2.partition) =
              (sortRespParts pr.2.partitions).map fun q => q.partition := by
            rw [← hsnd, List.map_map]
            rfl
          rw [h1]
          have hperm : ((sortRespParts pr.2.partitions).map fun q => q.partition).Perm
              (pr.2.partitions.map fun q => q.partition) :=
            (List.perm_insertionSort _ _).map _
          exact hperm.nodup_iff.mpr (hpnd pr (List.mem_cons_self _ _))
        have hinner := foldl_applyPartPair_lookup zipped parts p uc hzn hpc
        have hval : topicMatchedValue (pr :: rest) t p = partMatchedValue zipped p := by
          simp only [topicMatchedValue, List.findSome?_cons]
          rw [if_pos ⟨hp, hc.1, hc.2⟩]
          cases hpv : partMatchedValue zipped p with
          | none =>
            simpa only [topicMatchedValue] using hrestval
          | some v => rfl
        rw [happ, hval]
        unfold lookup2
        rw [foldl_applyTopicPair_lookup_ne rest _ t hrest]
        have hset : alookup t (aset pr.2.topic (zipped.foldl applyPartPair parts) unc) =
            some (zipped.foldl applyPartPair parts) := by
          rw [hp, alookup_aset_self, hparts]
          rfl
        rw [hset]
        simpa using hinner
    · have hlook : lookup2 (applyTopicPair unc pr) t p = some uc := by
        unfold lookup2
        rw [applyTopicPair_lookup_ne _ _ _ hp, hparts]
        simpa using hpc
      have hval : topicMatchedValue (pr :: rest) t p = topicMatchedValue rest t p := by
        simp [topicMatchedValue, List.findSome?_cons, hp]
      rw [hval]
      exact ih _ _ hnd.2 (fun x hx => hpnd x (List.mem_cons_of_mem _ hx)) hlook

theorem updateCommittedCore_spec (u : Uncommitted)
    (reqTopics : List OffsetCommitRequestTopic) (respTopics : List OffsetCommitResponseTopic)
    (t : String) (p : Int) (uc : Uncommit)
    (hnd : (respTopics.map fun s => s.topic).Nodup)
    (hpnd : ∀ s ∈ respTopics, ((s.partitions.map fun q => q.partition)).Nodup)
    (hu : lookup2 u t p = some uc) :
    lookup2 (updateCommittedCore u reqTopics respTopics) t p =
      some { uc with committed :=
        (commitMatchedValue reqTopics respTopics t p).getD uc.committed } := by
  unfold updateCommittedCore commitMatchedValue
  by_cases hlen : reqTopics.length ≠ respTopics.length
  · rw [if_pos hlen, if_pos hlen]
    simpa using hu
  · push_neg at hlen
    rw [if_neg (by simp [hlen]), if_neg (by simp [hlen])]
    set zipped := (sortReqTopics reqTopics).zip (sortRespTopics respTopics) with hzip
    have hlenle : (sortRespTopics respTopics).length ≤ (sortReqTopics reqTopics).length := by
      simp [sortReqTopics, sortRespTopics, List.length_insertionSort, hlen]
    have hsnd : zipped.map Prod.snd = sortRespTopics respTopics := by
      rw [hzip]
      exact List.map_snd_zip _ _ hlenle
    have hzn : (zipped.map fun pr => pr.2.topic).Nodup := by
      have h1 : (zipped.map fun pr => pr.2.topic) =
          (sortRespTopics respTopics).map fun s => s.topic := by
        rw [← hsnd, List.map_map]
        rfl
      rw [h1]
      exact (((List.perm_insertionSort _ _).map _).nodup_iff).mpr hnd
    have hzpn : ∀ pr ∈ zipped, ((pr.2.partitions.map fun q => q.partition)).Nodup := by
      intro pr hpr
      apply hpnd
      have h2 : pr.2 ∈ sortRespTopics respTopics := by
        rw [← hsnd]
        exact List.mem_map_of_mem _ hpr
      exact (List.perm_insertionSort _ _).mem_iff.mp h2
    exact foldl_applyTopicPair_lookup2 zipped u t p uc hzn hzpn hu

/-! ## Claims C1 and C3 -/

/-- Claim C1: for every OffsetCommit request/response pair applied through
updateCommitted, if the request's Generation field differs from the session's
current generation, the entire result is dropped: the uncommitted ledger is
left completely unchanged. -/
theorem updateCommitted_generation_mismatch (gen : Int) (unc : Option Uncommitted)
    (req : OffsetCommitRequest) (resp : OffsetCommitResponse)
    (h : req.generation ≠ gen) :
    updateCommitted gen unc req resp = unc := by
  unfold updateCommitted
  rw [if_pos h]

/-- Sample ledger with one topic and two dirty partitions. -/
def sampleUnc : Uncommitted :=
  [("t", [(0, ⟨⟨1, 10⟩, ⟨1, 5⟩⟩), (1, ⟨⟨1, 20⟩, ⟨1, 15⟩⟩)])]

/-- Sample OffsetCommit request at generation 4 committing both partitions. -/
def sampleCommitReq : OffsetCommitRequest :=
  ⟨"g", 4, "m", none, [⟨"t", [⟨0, 10, 1, "m"⟩, ⟨1, 20, 1, "m"⟩]⟩]⟩

/-- Sample response acknowledging partition 0 and failing partition 1. -/
def sampleCommitResp : OffsetCommitResponse :=
  ⟨[⟨"t", [⟨0, 0⟩, ⟨1, 27⟩]⟩]⟩

/-- Sample transactional commit request with the same payload. -/
def sampleTxnReq : TxnOffsetCommitRequest :=
  { transactionalID := "tx", group := "g", producerID := 7, producerEpoch := 1,
    topics := sampleCommitReq.topics }

/-- Sample transactional commit response with the same payload. -/
def sampleTxnResp : TxnOffsetCommitResponse :=
  { topics := sampleCommitResp.topics }

/-- Witness for C1: a commit dispatched at generation 4 applied while the
session is at generation 5 leaves the concrete ledger untouched. -/
theorem updateCommitted_generation_mismatch_witness :
    sampleCommitReq.generation ≠ (5 : Int) ∧
      updateCommitted 5 (some sampleUnc) sampleCommitReq sampleCommitResp = some sampleUnc :=
  ⟨by decide, updateCommitted_generation_mismatch 5 (some sampleUnc) sampleCommitReq
    sampleCommitResp (by decide)⟩

/-- Claim C3: updateCommitted and updateCommittedTxn sort both the request and
the response by topic and then by partition and pair entries by index; they
set `committed = (request epoch, request offset)` exactly for those partitions
whose response error code is zero and whose topic and partition pairwise match
the request (the pairing is captured by `commitMatchedValue`); partitions that
are errored or mismatched, and whole results whose request and response topic
counts differ, leave the corresponding committed state unadvanced. -/
theorem updateCommitted_pairwise_spec (gen : Int) (unc : Uncommitted)
    (req : OffsetCommitRequest) (resp : OffsetCommitResponse)
    (txnReq : TxnOffsetCommitRequest) (txnResp : TxnOffsetCommitResponse)
    (t : String) (p : Int) (uc : Uncommit)
    (hgen : req.generation = gen)
    (hnd : (resp.topics.map fun s => s.topic).Nodup)
    (hpnd : ∀ s ∈ resp.topics, ((s.partitions.map fun q => q.partition)).Nodup)
    (hnd2 : (txnResp.topics.map fun s => s.topic).Nodup)
    (hpnd2 : ∀ s ∈ txnResp.topics, ((s.partitions.map fun q => q.partition)).Nodup)
    (hu : lookup2 unc t p = some uc) :
    updateCommitted gen (some unc) req resp =
      some (updateCommittedCore unc req.topics resp.topics) ∧
    lookup2 (updateCommittedCore unc req.topics resp.topics) t p =
      some { uc with committed :=
        (commitMatchedValue req.topics resp.topics t p).getD uc.committed } ∧
    updateCommittedTxn (some unc) txnReq txnResp =
      some (updateCommittedCore unc txnReq.topics txnResp.topics) ∧
    lookup2 (updateCommittedCore unc txnReq.topics txnResp.topics) t p =
      some { uc with committed :=
        (commitMatchedValue txnReq.topics txnResp.topics t p).getD uc.committed } := by
  refine ⟨?_, ?_, rfl, ?_⟩
  · unfold updateCommitted
    rw [if_neg (by simp [hgen])]
  · exact updateCommittedCore_spec unc req.topics resp.topics t p uc hnd hpnd hu
  · exact updateCommittedCore_spec unc txnReq.topics txnResp.topics t p uc hnd2 hpnd2 hu

/-- Witness for C3 at the sample data: the acknowledged partition 0 advances
to the request's (epoch 1, offset 10) while the errored partition 1 keeps its
old committed position (epoch 1, offset 15). -/
theorem updateCommitted_pairwise_spec_witness :
    lookup2 (updateCommittedCore sampleUnc sampleCommitReq.topics sampleCommitResp.topics)
        "t" 0 = some { head := ⟨1, 10⟩, committed := ⟨1, 10⟩ } ∧
    lookup2 (updateCommittedCore sampleUnc sampleCommitReq.topics sampleCommitResp.topics)
        "t" 1 = some { head := ⟨1, 20⟩, committed := ⟨1, 15⟩ } := by
  constructor
  · have h := (updateCommitted_pairwise_spec 4 sampleUnc sampleCommitReq sampleCommitResp
      sampleTxnReq sampleTxnResp "t" 0 ⟨⟨1, 10⟩, ⟨1, 5⟩⟩ (by decide) (by decide)
      (by decide) (by decide) (by decide) (by decide)).2.1
    rw [h]
    decide
  · have h := (updateCommitted_pairwise_spec 4 sampleUnc sampleCommitReq sampleCommitResp
      sampleTxnReq sampleTxnResp "t" 1 ⟨⟨1, 20⟩, ⟨1, 15⟩⟩ (by decide) (by decide)
      (by decide) (by decide) (by decide) (by decide)).2.1
    rw [h]
    decide

/-! ## updateUncommitted (C4) -/

/-- Record fields used by updateUncommitted: offset and leader epoch. -/
structure Record where
  offset : Int
  leaderEpoch : Int
deriving DecidableEq, Repr

/-- One fetched partition: its id and the delivered records. -/
structure FetchPartition where
  partition : Int
  records : List Record
deriving DecidableEq, Repr

/-- One fetched topic. -/
structure FetchTopic where
  topic : String
  partitions : List FetchPartition
deriving DecidableEq, Repr

/-- One fetch delivery. -/
structure Fetch where
  topics : List FetchTopic
deriving DecidableEq, Repr

/-- Loop body of updateUncommitted for one fetched partition.  The state
carries the ledger and the fetch's `topicOffsets` write target, modelled by
the key it aliases (`none` while the Go variable is still nil).  The Go code
resolves `topicOffsets` only once per fetch — on the first partition carrying
records — so every later partition of the same fetch, whatever its topic,
writes into that first topic's map. -/
def updateUncommittedPart (tname : String) (st : Option Uncommitted × Option String)
    (fp : FetchPartition) : Option Uncommitted × Option String :=
  match fp.records.getLast? with
  | none => st
  | some final =>
    let unc0 : Uncommitted := st.1.getD []
    let anchor : String := st.2.getD tname
    let unc1 : Uncommitted :=
      if st.2.isNone ∧ (alookup tname unc0).isNone then unc0 ++ [(tname, [])] else unc0
    let parts : List (Int × Uncommit) := (alookup anchor unc1).getD []
    let prior : Option Uncommit := alookup fp.partition parts
    let newOffset : Int := final.offset + 1
    if (prior.elim false fun u => decide (u.head.offset > newOffset)) then (some unc1, some anchor)
    else
      let u0 : Uncommit := prior.getD ⟨⟨0, 0⟩, ⟨0, 0⟩⟩
      let u1 : Uncommit := { u0 with head := ⟨final.leaderEpoch, newOffset⟩ }
      (some (ains anchor (ains fp.partition u1 parts) unc1), some anchor)

/-- Loop body of updateUncommitted for one fetched topic. -/
def updateUncommittedTopic (st : Option Uncommitted × Option String) (ft : FetchTopic) :
    Option Uncommitted × Option String :=
  ft.partitions.foldl (updateUncommittedPart ft.topic) st

/-- Loop body of updateUncommitted for one fetch: the `topicOffsets` variable
is reset to nil at the start of each fetch. -/
def updateUncommittedFetch (unc : Option Uncommitted) (f : Fetch) : Option Uncommitted :=
  (f.topics.foldl updateUncommittedTopic (unc, none)).1

/-- updateUncommitted: record the new heads (final record offset + 1, final
record epoch) of the delivered fetches into the ledger. -/
def updateUncommitted (unc : Option Uncommitted) (fetches : List Fetch) : Option Uncommitted :=
  fetches.foldl updateUncommittedFetch unc

/-- Claim C4 (code bug): updateUncommitted is supposed to set each non-empty
fetched partition's head inside its own topic's ledger entry, but the write
target is resolved only once per fetch, so a fetch carrying records for topics
"a" and "b" records the head of b's partition 1 under topic "a"; the ledger
ends with no entry at all for topic "b". -/
theorem updateUncommitted_cross_topic_bug :
    updateUncommitted none [⟨[⟨"a", [⟨0, [⟨5, 1⟩]⟩]⟩, ⟨"b", [⟨1, [⟨7, 1⟩]⟩]⟩]⟩] =
      some [("a", [(0, ⟨⟨1, 6⟩, ⟨0, 0⟩⟩), (1, ⟨⟨1, 8⟩, ⟨0, 0⟩⟩)])] ∧
    lookup2 ((updateUncommitted none
        [⟨[⟨"a", [⟨0, [⟨5, 1⟩]⟩]⟩, ⟨"b", [⟨1, [⟨7, 1⟩]⟩]⟩]⟩]).getD []) "b" 1 = none := by
  decide

/-! ## diffAssigned (C5) -/

/-- Assignment map: topic → partition ids. -/
abbrev Assignment := List (String × List Int)

/-- Inner loop of diffAssigned for one topic present in both assignments (the
`lasts` set algorithm): walk the now-partitions, deleting common ones from the
last set; a now-partition absent from the set is added, and whatever remains
of the set at the end is lost. -/
def splitNow (lasts : List Int) : List Int → List Int × List Int
  | [] => ([], lasts)
  | p :: rest =>
    if p ∈ lasts then splitNow (lasts.erase p) rest
    else
      let ar := splitNow lasts rest
      (p :: ar.1, ar.2)

/-- Loop body of diffAssigned's pass over lastAssigned: a topic absent from
now is wholly lost; a shared topic contributes its splitNow added and lost
parts (a key appears in the result maps only when something was appended). -/
def diffStep (nowA : Assignment) (acc : Assignment × Assignment) (tp : String × List Int) :
    Assignment × Assignment :=
  match alookup tp.1 nowA with
  | none => (acc.1, acc.2 ++ [(tp.1, tp.2)])
  | some nowPartitions =>
    ((if (splitNow tp.2 nowPartitions).1 = [] then acc.1
      else acc.1 ++ [(tp.1, (splitNow tp.2 nowPartitions).1)]),
     (if (splitNow tp.2 nowPartitions).2 = [] then acc.2
      else acc.2 ++ [(tp.1, (splitNow tp.2 nowPartitions).2)]))

/-- Loop body of diffAssigned's pass over nowAssigned: topics entirely new to
now are wholly added. -/
def newTopicStep (la : List (String × List Int)) (acc : Assignment)
    (tp : String × List Int) : Assignment :=
  if (alookup tp.1 la).isSome then acc else acc ++ [tp]

/-- diffAssigned: compute the added and lost partition maps between the prior
assignment (`none` models the nil map of a first session) and the new one. -/
def diffAssigned (lastA : Option Assignment) (nowA : Assignment) :
    Assignment × Assignment :=
  match lastA with
  | none => (nowA, [])
  | some la =>
    let al := la.foldl (diffStep nowA) ([], [])
    (nowA.foldl (newTopicStep la) al.1, al.2)

/-- Partition membership in an assignment map. -/
def assignMem (a : Assignment) (t : String) (p : Int) : Prop :=
  ∃ ps, alookup t a = some ps ∧ p ∈ ps

theorem splitNow_added_mem (now : List Int) : ∀ lasts : List Int, lasts.Nodup → now.Nodup →
    ∀ p : Int, (p ∈ (splitNow lasts now).1 ↔ p ∈ now ∧ p ∉ lasts) := by
  induction now with
  | nil =>
    intro lasts hl hn p
    simp [splitNow]
  | cons q rest ih =>
    intro lasts hl hn p
    rw [List.nodup_cons] at hn
    by_cases hq : q ∈ lasts
    · rw [splitNow, if_pos hq, ih _ (hl.erase _) hn.2 p]
      constructor
      · rintro ⟨h1, h2⟩
        have hpq : p ≠ q := fun he => hn.1 (he ▸ h1)
        exact ⟨List.mem_cons_of_mem _ h1, fun hpl => h2 ((hl.mem_erase_iff).mpr ⟨hpq, hpl⟩)⟩
      · rintro ⟨h1, h2⟩
        rcases List.mem_cons.mp h1 with he | hr
        · exact absurd (he ▸ hq) h2
        · exact ⟨hr, fun hpe => h2 ((hl.mem_erase_iff).mp hpe).2⟩
    · rw [splitNow, if_neg hq]
      simp only [List.mem_cons]
      rw [ih _ hl hn.2 p]
      by_cases hpq : p = q
      · simp [hpq, hq]
      · simp [hpq]

theorem splitNow_lost_mem (now : List Int) : ∀ lasts : List Int, lasts.Nodup → now.Nodup →
    ∀ p : Int, (p ∈ (splitNow lasts now).2 ↔ p ∈ lasts ∧ p ∉ now) := by
  induction now with
  | nil =>
    intro lasts hl hn p
    simp [splitNow]
  | cons q rest ih =>
    intro lasts hl hn p
    rw [List.nodup_cons] at hn
    by_cases hq : q ∈ lasts
    · rw [splitNow, if_pos hq, ih _ (hl.erase _) hn.2 p]
      constructor
      · rintro ⟨h1, h2⟩
        have h3 := (hl.mem_erase_iff).mp h1
        refine ⟨h3.2, ?_⟩
        rw [List.mem_cons]
        push_neg
        exact ⟨h3.1, h2⟩
      · rintro ⟨h1, h2⟩
        rw [List.mem_cons] at h2
        push_neg at h2
        exact ⟨(hl.mem_erase_iff).mpr ⟨h2.1, h1⟩, h2.2⟩
    · rw [splitNow, if_neg hq, ih _ hl hn.2 p]
      constructor
      · rintro ⟨h1, h2⟩
        refine ⟨h1, ?_⟩
        rw [List.mem_cons]
        push_neg
        exact ⟨fun he => hq (he ▸ h1), h2⟩
      · rintro ⟨h1, h2⟩
        rw [List.mem_cons] at h2
        push_neg at h2
        exact ⟨h1, h2.2⟩

theorem alookup_append {α β : Type} [DecidableEq α] (k : α) (xs ys : List (α × β)) :
    alookup k (xs ++ ys) = (alookup k xs).elim (alookup k ys) some := by
  induction xs with
  | nil => simp [alookup]
  | cons kv rest ih =>
    by_cases h : kv.1 = k
    · simp [alookup, h]
    · simp [alookup, h, ih]

theorem alookup_eq_none_iff {α β : Type} [DecidableEq α] (k : α) (m : List (α × β)) :
    alookup k m = none ↔ k ∉ m.map Prod.fst := by
  induction m with
  | nil => simp [alookup]
  | cons kv rest ih =>
    by_cases h : kv.1 = k
    · simp [alookup, h]
    · simp only [alookup, if_neg h, List.map_cons, List.mem_cons]
      rw [ih]
      constructor
      · rintro hr hor
        rcases hor with he | hm
        · exact h he.symm
        · exact hr hm
      · intro hc
        exact fun hm => hc (Or.inr hm)

theorem alookup_some_mem {α β : Type} [DecidableEq α] {k : α} {v : β} {m : List (α × β)}
    (h : alookup k m = some v) : (k, v) ∈ m := by
  induction m with
  | nil => simp [alookup] at h
  | cons kv rest ih =>
    by_cases hk : kv.1 = k
    · rw [alookup, if_pos hk] at h
      have : kv = (k, v) := by
        cases kv
        cases h
        cases hk
        rfl
      rw [← this]
      exact List.mem_cons_self _ _
    · rw [alookup, if_neg hk] at h
      exact List.mem_cons_of_mem _ (ih h)

theorem alookup_filterMap_keyed {β γ : Type} (la : List (String × β))
    (f : String × β → Option γ) (t : String)
    (hnd : (la.map Prod.fst).Nodup) :
    alookup t (la.filterMap fun tp => (f tp).map fun c => (tp.1, c)) =
      (alookup t la).bind fun b => f (t, b) := by
  induction la with
  | nil => simp [alookup]
  | cons tp rest ih =>
    rw [List.map_cons, List.nodup_cons] at hnd
    by_cases ht : tp.1 = t
    · have htp : (t, tp.2) = tp := by rw [← ht]
      cases hf : f tp with
      | none =>
        have hnone : alookup t rest = none := (alookup_eq_none_iff _ _).mpr (ht ▸ hnd.1)
        simp only [List.filterMap_cons, hf, Option.map_none']
        rw [ih hnd.2, hnone]
        simp [alookup, ht, htp, hf]
      | some c =>
        simp only [List.filterMap_cons, hf, Option.map_some']
        simp [alookup, ht, htp, hf]
    · cases hf : f tp with
      | none =>
        simp only [List.filterMap_cons, hf, Option.map_none']
        rw [ih hnd.2]
        simp [alookup, ht]
      | some c =>
        simp only [List.filterMap_cons, hf, Option.map_some']
        simp only [alookup, if_neg ht]
        rw [ih hnd.2]

/-- Added partitions one topic of lastAssigned contributes (none when the
result map gets no key for it). -/
def addChunk (nowA : Assignment) (tp : String × List Int) : Option (List Int) :=
  match alookup tp.1 nowA with
  | none => none
  | some nps => if (splitNow tp.2 nps).1 = [] then none else some (splitNow tp.2 nps).1

/-- Lost partitions one topic of lastAssigned contributes. -/
def lostChunk (nowA : Assignment) (tp : String × List Int) : Option (List Int) :=
  match alookup tp.1 nowA with
  | none => some tp.2
  | some nps => if (splitNow tp.2 nps).2 = [] then none else some (splitNow tp.2 nps).2

/-- Added partitions one topic of nowAssigned contributes in the second pass
(whole topic when it is new). -/
def newChunk (la : List (String × List Int)) (tp : String × List Int) : Option (List Int) :=
  if (alookup tp.1 la).isSome then none else some tp.2

theorem foldl_diffStep_eq (nowA : Assignment) (la : List (String × List Int)) :
    ∀ acc : Assignment × Assignment,
    la.foldl (diffStep nowA) acc =
      (acc.1 ++ la.filterMap fun tp => (addChunk nowA tp).map fun c => (tp.1, c),
       acc.2 ++ la.filterMap fun tp => (lostChunk nowA tp).map fun c => (tp.1, c)) := by
  induction la with
  | nil =>
    intro acc
    simp
  | cons tp rest ih =>
    intro acc
    rw [List.foldl_cons, ih]
    cases halo : alookup tp.1 nowA with
    | none =>
      simp [diffStep, addChunk, lostChunk, List.filterMap_cons, halo, List.append_assoc]
    | some nps =>
      by_cases ha : (splitNow tp.2 nps).1 = [] <;>
        by_cases hl : (splitNow tp.2 nps).2 = [] <;>
        simp [diffStep, addChunk, lostChunk, List.filterMap_cons, halo, ha, hl,
          List.append_assoc]

theorem foldl_newTopicStep_eq (la : List (String × List Int))
    (nowA : List (String × List Int)) :
    ∀ acc : Assignment,
    nowA.foldl (newTopicStep la) acc =
      acc ++ nowA.filterMap fun tp => (newChunk la tp).map fun c => (tp.1, c) := by
  induction nowA with
  | nil =>
    intro acc
    simp
  | cons tp rest ih =>
    intro acc
    rw [List.foldl_cons, ih]
    by_cases h : (alookup tp.1 la).isSome <;>
      simp [newTopicStep, newChunk, List.filterMap_cons, h, List.append_assoc]

/-- Claim C5: diffAssigned computes exactly the specified added and lost sets:
a topic of lastAssigned absent from nowAssigned is wholly lost; a partition in
last[topic] but not in now[topic] is lost; a partition in now[topic] but not
in last[topic] is added; a topic entirely new to now has all its partitions
added; and when lastAssigned is nil (first session), everything in nowAssigned
is added and nothing is lost. -/
theorem diffAssigned_spec (la : List (String × List Int)) (nowA : Assignment)
    (hlk : (la.map Prod.fst).Nodup) (hnk : (nowA.map Prod.fst).Nodup)
    (hlp : ∀ tp ∈ la, tp.2.Nodup) (hnp : ∀ tp ∈ nowA, tp.2.Nodup)
    (t : String) (p : Int) :
    diffAssigned none nowA = (nowA, []) ∧
    (assignMem (diffAssigned (some la) nowA).2 t p ↔
      (∃ lps, alookup t la = some lps ∧ p ∈ lps ∧
        ∀ nps, alookup t nowA = some nps → p ∉ nps)) ∧
    (assignMem (diffAssigned (some la) nowA).1 t p ↔
      (∃ nps, alookup t nowA = some nps ∧ p ∈ nps ∧
        ∀ lps, alookup t la = some lps → p ∉ lps)) := by
  refine ⟨rfl, ?_, ?_⟩
  · have h2 : (diffAssigned (some la) nowA).2 =
        la.filterMap fun tp => (lostChunk nowA tp).map fun c => (tp.1, c) := by
      simp only [diffAssigned]
      rw [foldl_diffStep_eq]
      simp
    rw [h2]
    unfold assignMem
    rw [alookup_filterMap_keyed la (lostChunk nowA) t hlk]
    cases halo : alookup t la with
    | none => simp
    | some lps =>
      have hlpsnd : lps.Nodup := hlp _ (alookup_some_mem halo)
      simp only [Option.some_bind]
      cases hano : alookup t nowA with
      | none =>
        have hchunk : lostChunk nowA (t, lps) = some lps := by
          simp [lostChunk, hano]
        rw [hchunk]
        simp
      | some nps =>
        have hnpsnd : nps.Nodup := hnp _ (alookup_some_mem hano)
        have hsplit := splitNow_lost_mem nps lps hlpsnd hnpsnd p
        have hchunk : lostChunk nowA (t, lps) =
            if (splitNow lps nps).2 = [] then none else some (splitNow lps nps).2 := by
          simp [lostChunk, hano]
        rw [hchunk]
        by_cases hrem : (splitNow lps nps).2 = []
        · rw [if_pos hrem]
          rw [hrem] at hsplit
          simp only [List.not_mem_nil, false_iff] at hsplit
          push_neg at hsplit
          constructor
          · rintro ⟨ps, hps, _⟩
            cases hps
          · rintro ⟨lps', hl', hp', hnot⟩
            rw [Option.some.injEq] at hl'
            subst hl'
            exact absurd (hsplit hp') (hnot nps rfl)
        · rw [if_neg hrem]
          constructor
          · rintro ⟨ps, hps, hp'⟩
            rw [Option.some.injEq] at hps
            subst hps
            have hm := hsplit.mp hp'
            refine ⟨lps, rfl, hm.1, ?_⟩
            rintro nps' hn'
            rw [Option.some.injEq] at hn'
            subst hn'
            exact hm.2
          · rintro ⟨lps', hl', hp', hnot⟩
            rw [Option.some.injEq] at hl'
            subst hl'
            exact ⟨_, rfl, hsplit.mpr ⟨hp', hnot nps rfl⟩⟩
  · have h1 : (diffAssigned (some la) nowA).1 =
        (la.filterMap fun tp => (addChunk nowA tp).map fun c => (tp.1, c)) ++
        (nowA.filterMap fun tp => (newChunk la tp).map fun c => (tp.1, c)) := by
      simp only [diffAssigned]
      rw [foldl_diffStep_eq, foldl_newTopicStep_eq]
      simp
    rw [h1]
    unfold assignMem
    rw [alookup_append, alookup_filterMap_keyed la (addChunk nowA) t hlk,
      alookup_filterMap_keyed nowA (newChunk la) t hnk]
    cases halo : alookup t la with
    | none =>
      simp only [Option.none_bind, Option.elim_none]
      cases hano : alookup t nowA with
      | none => simp
      | some nps =>
        have hchunk : newChunk la (t, nps) = some nps := by
          simp [newChunk, halo]
        simp only [Option.some_bind]
        rw [hchunk]
        constructor
        · rintro ⟨ps, hps, hp'⟩
          rw [Option.some.injEq] at hps
          subst hps
          exact ⟨nps, rfl, hp', fun lps' hl' => by cases hl'⟩
        · rintro ⟨nps', hn', hp', _⟩
          rw [Option.some.injEq] at hn'
          subst hn'
          exact ⟨_, rfl, hp'⟩
    | some lps =>
      have hlpsnd : lps.Nodup := hlp _ (alookup_some_mem halo)
      simp only [Option.some_bind]
      cases hano : alookup t nowA with
      | none =>
        have hchunk : addChunk nowA (t, lps) = none := by
          simp [addChunk, hano]
        rw [hchunk]
        simp
      | some nps =>
        have hnpsnd : nps.Nodup := hnp _ (alookup_some_mem hano)
        have hsplit := splitNow_added_mem nps lps hlpsnd hnpsnd p
        have hchunk : addChunk nowA (t, lps) =
            if (splitNow lps nps).1 = [] then none else some (splitNow lps nps).1 := by
          simp [addChunk, hano]
        rw [hchunk]
        by_cases hadd : (splitNow lps nps).1 = []
        · rw [if_pos hadd]
          simp only [Option.elim_none, Option.some_bind]
          have hnewc : newChunk la (t, nps) = none := by
            simp [newChunk, halo]
          rw [hnewc]
          rw [hadd] at hsplit
          simp only [List.not_mem_nil, false_iff] at hsplit
          push_neg at hsplit
          constructor
          · rintro ⟨ps, hps, _⟩
            cases hps
          · rintro ⟨nps', hn', hp', hnot⟩
            rw [Option.some.injEq] at hn'
            subst hn'
            exact absurd (hsplit hp') (hnot lps rfl)
        · rw [if_neg hadd]
          simp only [Option.elim_some]
          constructor
          · rintro ⟨ps, hps, hp'⟩
            rw [Option.some.injEq] at hps
            subst hps
            have hm := hsplit.mp hp'
            refine ⟨nps, rfl, hm.1, ?_⟩
            rintro lps' hl'
            rw [Option.some.injEq] at hl'
            subst hl'
            exact hm.2
          · rintro ⟨nps', hn', hp', hnot⟩
            rw [Option.some.injEq] at hn'
            subst hn'
            exact ⟨_, rfl, hsplit.mpr ⟨hp', hnot lps rfl⟩⟩

/-- Witness for C5: diffing last = {t: [0,1,2]} against now = {t: [0,2],
u: [3]} loses t-partition 1 and adds u-partition 3. -/
theorem diffAssigned_spec_witness :
    assignMem (diffAssigned (some [("t", [0, 1, 2])]) [("t", [0, 2]), ("u", [3])]).2 "t" 1 ∧
    assignMem (diffAssigned (some [("t", [0, 1, 2])]) [("t", [0, 2]), ("u", [3])]).1 "u" 3 := by
  constructor
  · apply (diffAssigned_spec [("t", [0, 1, 2])] [("t", [0, 2]), ("u", [3])]
      (by decide) (by decide) (by decide) (by decide) "t" 1).2.1.mpr
    refine ⟨[0, 1, 2], rfl, by decide, ?_⟩
    intro nps h
    injection h with h2
    subst h2
    decide
  · apply (diffAssigned_spec [("t", [0, 1, 2])] [("t", [0, 2]), ("u", [3])]
      (by decide) (by decide) (by decide) (by decide) "u" 3).2.2.mpr
    refine ⟨[3], rfl, by decide, ?_⟩
    intro lps h
    injection h

/-! ## leave (C8) -/

/-- LeaveGroup request fields used by leave. -/
structure LeaveGroupRequest where
  group : String
  memberID : String
  members : List String
deriving DecidableEq, Repr

/-- leave: after cancelling the session scope, send a LeaveGroup request
carrying the member id — but only when no instance id is configured (static
members stay in the group across restarts). -/
def leave (instanceID : Option String) (id memberID : String) : Option LeaveGroupRequest :=
  match instanceID with
  | some _ => none
  | none => some ⟨id, memberID, [memberID]⟩

/-- Claim C8: whenever instanceID is set, session teardown never sends a
LeaveGroup request; when instanceID is unset, leave sends a LeaveGroup request
carrying the member's id (as MemberID and inside Members). -/
theorem leave_static_member (iid id memberID : String) :
    leave (some iid) id memberID = none ∧
    leave none id memberID = some ⟨id, memberID, [memberID]⟩ :=
  ⟨rfl, rfl⟩

/-! ## revoke (C10) -/

/-- Modes of the fetch-pipeline assign hook. -/
inductive AssignHow where
  | invalidateAll
  | invalidateMatching
  | withoutInvalidating
deriving DecidableEq, Repr

/-- revokeStage constants from the source. -/
inductive RevokeStage where
  | revokeLastSession
  | revokeThisSession
deriving DecidableEq, Repr

/-- Observable side effects of revoke, in program order.  The offsets argument
of the assign hook is `none` for a nil map (eager invalidate-all call). -/
inductive RevokeEffect where
  | assignedPartitions (offsets : Option (List (String × List Int))) (how : AssignHow)
  | calledOnRevoked (arg : Option (List (String × List Int)))
  | rejoined
deriving DecidableEq, Repr

/-- The group state revoke reads and writes. -/
structure RevokeState where
  cooperative : Bool
  hasOnRevoked : Bool
  nowAssigned : Option (List (String × List Int))
  uncommitted : Option Uncommitted
deriving DecidableEq, Repr

/-- Prune the ledger of lost partitions: delete each lost partition, drop a
topic key once its partition map empties, and nil the whole map when no
topics remain. -/
def pruneUncommitted (u : Uncommitted) (lost : List (String × List Int)) :
    Option Uncommitted :=
  let u1 := lost.foldl (fun acc tp =>
    match alookup tp.1 acc with
    | none => acc
    | some parts =>
      let parts1 := tp.2.foldl (fun ps q => aerase q ps) parts
      if parts1 = [] then aerase tp.1 acc else aset tp.1 parts1 acc) u
  if u1 = [] then none else some u1

/-- revoke (lines 415-489): eager consumers revoke everything and clear state;
cooperative consumers with an empty lost set do nothing, and otherwise
invalidate buffered fetches for the lost partitions, run the user callback,
prune the ledger, and signal a rejoin (deferred, hence last). -/
def revoke (g : RevokeState) (stage : RevokeStage) (lost : List (String × List Int)) :
    RevokeState × List RevokeEffect :=
  if ¬ g.cooperative then
    ({ g with nowAssigned := none, uncommitted := none },
     if g.hasOnRevoked then [RevokeEffect.calledOnRevoked g.nowAssigned] else [])
  else
    -- the stage switch is behavior-free: revokeLastSession uses the passed
    -- lost set and revokeThisSession's body is an inert TODO in the source
    match stage with
    | _ =>
      if lost = [] then (g, [])
      else
        let effects :=
          [RevokeEffect.assignedPartitions (some lost) AssignHow.invalidateMatching] ++
          (if g.hasOnRevoked then [RevokeEffect.calledOnRevoked (some lost)] else []) ++
          [RevokeEffect.rejoined]
        match g.uncommitted with
        | none => (g, effects)
        | some u => ({ g with uncommitted := pruneUncommitted u lost }, effects)

/-- Claim C10: in cooperative mode, calling revoke for the last session with
an empty lost set is a complete no-op: no buffered fetches are invalidated,
the user onRevoked callback is not invoked, the uncommitted ledger is left
unchanged, and no rejoin is signaled (proved for either stage). -/
theorem revoke_cooperative_empty_noop (g : RevokeState) (stage : RevokeStage)
    (hc : g.cooperative = true) :
    revoke g stage [] = (g, []) := by
  unfold revoke
  rw [hc]
  simp

/-- Witness for C10 at a concrete cooperative state with an installed callback
and a dirty ledger. -/
theorem revoke_cooperative_empty_noop_witness :
    revoke ⟨true, true, some [("t", [0])], some sampleUnc⟩ RevokeStage.revokeLastSession [] =
      (⟨true, true, some [("t", [0])], some sampleUnc⟩, []) :=
  revoke_cooperative_empty_noop _ _ rfl

/-! ## fetchOffsets (C7) -/

/-- Offset as installed into the fetch pipeline.  Modelled from the spec: the
Offset type itself is defined outside this file's source; fetchOffsets fills
its stored offset (`request`) and leader `epoch` fields, and the configured
reset offset substitutes the whole value. -/
structure Offset where
  request : Int
  epoch : Int
deriving DecidableEq, Repr

structure OffsetFetchResponsePartition where
  partition : Int
  offset : Int
  leaderEpoch : Int
  errorCode : Int
deriving DecidableEq, Repr

structure OffsetFetchResponseTopic where
  topic : String
  partitions : List OffsetFetchResponsePartition
deriving DecidableEq, Repr

structure OffsetFetchResponse where
  version : Int
  errorCode : Int
  topics : List OffsetFetchResponseTopic
deriving DecidableEq, Repr

/-- Modelled from the spec: `error_for_code` surfaces Kafka's standard error
codes and code 0 means no error (the kerr package is not part of this file's
source); which errors are retriable is abstracted as a predicate argument. -/
def errorForCode (c : Int) : Option Int :=
  if c = 0 then none else some c

/-- Effective top-level error code: before version 2 the error code sat on the
first topic's first partition (the guard mirrors the source's
`resp.Version < 2 && len(resp.Topics) > 0 && len(resp.Topics[0].Partitions) > 0`). -/
def effectiveErrCode (resp : OffsetFetchResponse) : Int :=
  if resp.version < 2 ∧ resp.topics ≠ [] ∧ (resp.topics.headD ⟨"", []⟩).partitions ≠ []
  then ((resp.topics.headD ⟨"", []⟩).partitions.headD ⟨0, 0, 0, 0⟩).errorCode
  else resp.errorCode

/-- Offset decoded for one partition: a stored offset of -1 is replaced by
the configured reset offset; otherwise the stored offset is used, with the
leader epoch taken from the response only from version 5 on (KIP-320). -/
def fetchedOffset (v : Int) (reset : Offset) (pe : OffsetFetchResponsePartition) : Offset :=
  if pe.offset = -1 then reset
  else { request := pe.offset, epoch := if v ≥ 5 then pe.leaderEpoch else -1 }

/-- Decode the partitions of one topic, aborting on the first partition-level
error code. -/
def decodePartitions (v : Int) (reset : Offset) :
    List OffsetFetchResponsePartition → Except Int (List (Int × Offset))
  | [] => Except.ok []
  | pe :: rest =>
    if pe.errorCode ≠ 0 then Except.error pe.errorCode
    else
      match decodePartitions v reset rest with
      | Except.error e => Except.error e
      | Except.ok others => Except.ok ((pe.partition, fetchedOffset v reset pe) :: others)

/-- Decode all topics, aborting on the first partition-level error code. -/
def decodeTopics (v : Int) (reset : Offset) :
    List OffsetFetchResponseTopic → Except Int (List (String × List (Int × Offset)))
  | [] => Except.ok []
  | t :: rest =>
    match decodePartitions v reset t.partitions with
    | Except.error e => Except.error e
    | Except.ok parts =>
      match decodeTopics v reset rest with
      | Except.error e => Except.error e
      | Except.ok others => Except.ok ((t.topic, parts) :: others)

/-- fetchOffsets (decoding part, after the OffsetFetch RPC): lift the
version-dependent error code, tolerate a retriable top-level error, abort on
any partition-level error, and build the offsets to install. -/
def fetchOffsets (isRetriable : Int → Bool) (resetOffset : Offset)
    (resp : OffsetFetchResponse) : Except Int (List (String × List (Int × Offset))) :=
  (errorForCode (effectiveErrCode resp)).elim
    (decodeTopics resp.version resetOffset resp.topics)
    fun e =>
      if ¬ isRetriable e then Except.error e
      else decodeTopics resp.version resetOffset resp.topics

theorem decodePartitions_error_ne_zero (v : Int) (reset : Offset)
    (ps : List OffsetFetchResponsePartition) (e : Int)
    (h : decodePartitions v reset ps = Except.error e) : e ≠ 0 := by
  induction ps with
  | nil => simp [decodePartitions] at h
  | cons pe rest ih =>
    rw [decodePartitions] at h
    by_cases hc : pe.errorCode ≠ 0
    · rw [if_pos hc] at h
      cases h
      exact hc
    · rw [if_neg hc] at h
      cases hr : decodePartitions v reset rest with
      | error e2 =>
        rw [hr] at h
        cases h
        exact ih hr
      | ok others =>
        rw [hr] at h
        cases h

theorem decodeTopics_error_ne_zero (v : Int) (reset : Offset)
    (ts : List OffsetFetchResponseTopic) (e : Int)
    (h : decodeTopics v reset ts = Except.error e) : e ≠ 0 := by
  induction ts with
  | nil => simp [decodeTopics] at h
  | cons t rest ih =>
    rw [decodeTopics] at h
    cases hp : decodePartitions v reset t.partitions with
    | error e2 =>
      rw [hp] at h
      cases h
      exact decodePartitions_error_ne_zero v reset t.partitions _ hp
    | ok parts =>
      rw [hp] at h
      cases hr : decodeTopics v reset rest with
      | error e2 =>
        rw [hr] at h
        cases h
        exact ih hr
      | ok others =>
        rw [hr] at h
        cases h

theorem decodePartitions_error_of_mem (v : Int) (reset : Offset)
    (ps : List OffsetFetchResponsePartition)
    (h : ∃ pe ∈ ps, pe.errorCode ≠ 0) :
    ∃ e, decodePartitions v reset ps = Except.error e := by
  induction ps with
  | nil => simp at h
  | cons pe rest ih =>
    rw [decodePartitions]
    by_cases hc : pe.errorCode ≠ 0
    · exact ⟨pe.errorCode, by rw [if_pos hc]⟩
    · rw [if_neg hc]
      obtain ⟨pe', hmem, hne⟩ := h
      rcases List.mem_cons.mp hmem with he | hr
      · exact absurd (he ▸ hne) hc
      · obtain ⟨e, herr⟩ := ih ⟨pe', hr, hne⟩
        exact ⟨e, by rw [herr]⟩

theorem decodeTopics_error_of_mem (v : Int) (reset : Offset)
    (ts : List OffsetFetchResponseTopic)
    (h : ∃ t ∈ ts, ∃ pe ∈ t.partitions, pe.errorCode ≠ 0) :
    ∃ e, decodeTopics v reset ts = Except.error e := by
  induction ts with
  | nil => simp at h
  | cons t rest ih =>
    rw [decodeTopics]
    cases hp : decodePartitions v reset t.partitions with
    | error e2 => exact ⟨e2, rfl⟩
    | ok parts =>
      obtain ⟨t', hmem, hpe⟩ := h
      rcases List.mem_cons.mp hmem with he | hr
      · obtain ⟨e, herr⟩ := decodePartitions_error_of_mem v reset t.partitions (he ▸ hpe)
        rw [herr] at hp
        cases hp
      · obtain ⟨e, herr⟩ := ih ⟨t', hr, hpe⟩
        exact ⟨e, by rw [herr]⟩

theorem decodePartitions_all_clean (v : Int) (reset : Offset)
    (ps : List OffsetFetchResponsePartition)
    (h : ∀ pe ∈ ps, pe.errorCode = 0) :
    decodePartitions v reset ps =
      Except.ok (ps.map fun pe => (pe.partition, fetchedOffset v reset pe)) := by
  induction ps with
  | nil => rfl
  | cons pe rest ih =>
    rw [decodePartitions]
    rw [if_neg (by simpa using h pe (List.mem_cons_self _ _))]
    rw [ih fun x hx => h x (List.mem_cons_of_mem _ hx)]
    rfl

theorem decodeTopics_all_clean (v : Int) (reset : Offset)
    (ts : List OffsetFetchResponseTopic)
    (h : ∀ t ∈ ts, ∀ pe ∈ t.partitions, pe.errorCode = 0) :
    decodeTopics v reset ts =
      Except.ok (ts.map fun t =>
        (t.topic, t.partitions.map fun pe => (pe.partition, fetchedOffset v reset pe))) := by
  induction ts with
  | nil => rfl
  | cons t rest ih =>
    rw [decodeTopics]
    rw [decodePartitions_all_clean v reset t.partitions (h t (List.mem_cons_self _ _))]
    rw [ih fun x hx => h x (List.mem_cons_of_mem _ hx)]
    rfl

theorem alookup_map_keyed {A B K : Type} [DecidableEq K] (l : List A)
    (key : A → K) (val : A → B) (hnd : (l.map key).Nodup) :
    ∀ a ∈ l, alookup (key a) (l.map fun x => (key x, val x)) = some (val a) := by
  induction l with
  | nil => intro a ha; simp at ha
  | cons x rest ih =>
    rw [List.map_cons, List.nodup_cons] at hnd
    intro a ha
    rcases List.mem_cons.mp ha with he | hr
    · subst he
      simp [alookup]
    · rw [List.map_cons, alookup]
      have hne : (key x, val x).1 ≠ key a := by
        intro hc
        apply hnd.1
        rw [show ((key x, val x).1 = key x) from rfl] at hc
        rw [hc]
        exact List.mem_map_of_mem key hr
      rw [if_neg hne]
      exact ih hnd.2 a hr

/-- Claim C7: fetchOffsets decodes an OffsetFetch response as specified.
Below version 2 the error code is read from the first topic's first partition
and, when non-retriable, aborts with exactly that code; any non-zero
partition-level error code aborts the fetch; a retriable (or zero) top-level
error is tolerated, and then every partition decodes to the stored offset —
substituted by the configured reset offset when it is -1 — with the leader
epoch taken from the response only from version 5 on (epoch -1 below). -/
theorem fetchOffsets_spec (isRetriable : Int → Bool) (reset : Offset)
    (resp : OffsetFetchResponse) :
    (∀ t0 p0 restT restP, resp.version < 2 → resp.topics = t0 :: restT →
      t0.partitions = p0 :: restP → p0.errorCode ≠ 0 → isRetriable p0.errorCode = false →
      fetchOffsets isRetriable reset resp = Except.error p0.errorCode) ∧
    ((∃ t ∈ resp.topics, ∃ pe ∈ t.partitions, pe.errorCode ≠ 0) →
      ∃ e, e ≠ 0 ∧ fetchOffsets isRetriable reset resp = Except.error e) ∧
    ((∀ t ∈ resp.topics, ∀ pe ∈ t.partitions, pe.errorCode = 0) →
      (effectiveErrCode resp = 0 ∨ isRetriable (effectiveErrCode resp) = true) →
      (resp.topics.map fun t => t.topic).Nodup →
      (∀ t ∈ resp.topics, (t.partitions.map fun pe => pe.partition).Nodup) →
      ∃ m, fetchOffsets isRetriable reset resp = Except.ok m ∧
        ∀ t ∈ resp.topics, ∀ pe ∈ t.partitions, ∃ ps, alookup t.topic m = some ps ∧
          alookup pe.partition ps = some (fetchedOffset resp.version reset pe)) := by
  refine ⟨?_, ?_, ?_⟩
  · intro t0 p0 restT restP hv ht hp hc hr
    have heff : effectiveErrCode resp = p0.errorCode := by
      unfold effectiveErrCode
      rw [ht]
      rw [if_pos ⟨hv, by simp, by simp [hp]⟩]
      simp [hp]
    unfold fetchOffsets
    rw [heff]
    unfold errorForCode
    rw [if_neg hc, Option.elim_some, if_pos (by simp [hr])]
  · intro hex
    cases hcode : errorForCode (effectiveErrCode resp) with
    | some e =>
      by_cases hret : isRetriable e
      · obtain ⟨e2, herr⟩ := decodeTopics_error_of_mem resp.version reset resp.topics hex
        refine ⟨e2, decodeTopics_error_ne_zero _ _ _ _ herr, ?_⟩
        unfold fetchOffsets
        rw [hcode, Option.elim_some, if_neg (by simp [hret]), herr]
      · have hne : e ≠ 0 := by
          unfold errorForCode at hcode
          by_cases h0 : effectiveErrCode resp = 0
          · rw [if_pos h0] at hcode
            cases hcode
          · rw [if_neg h0] at hcode
            cases hcode
            exact h0
        refine ⟨e, hne, ?_⟩
        unfold fetchOffsets
        rw [hcode, Option.elim_some, if_pos (by simp [hret])]
    | none =>
      obtain ⟨e2, herr⟩ := decodeTopics_error_of_mem resp.version reset resp.topics hex
      refine ⟨e2, decodeTopics_error_ne_zero _ _ _ _ herr, ?_⟩
      unfold fetchOffsets
      rw [hcode, Option.elim_none, herr]
  · intro hclean heff hndt hndp
    have hdec := decodeTopics_all_clean resp.version reset resp.topics hclean
    have hfetch : fetchOffsets isRetriable reset resp =
        decodeTopics resp.version reset resp.topics := by
      unfold fetchOffsets errorForCode
      rcases heff with h0 | hret
      · rw [if_pos h0, Option.elim_none]
      · by_cases h0 : effectiveErrCode resp = 0
        · rw [if_pos h0, Option.elim_none]
        · rw [if_neg h0, Option.elim_some, if_neg (by simp [hret])]
    refine ⟨_, hfetch.trans hdec, ?_⟩
    intro t ht pe hpe
    refine ⟨t.partitions.map fun pe => (pe.partition, fetchedOffset resp.version reset pe), ?_, ?_⟩
    · exact alookup_map_keyed resp.topics (fun t => t.topic)
        (fun t => t.partitions.map fun pe => (pe.partition, fetchedOffset resp.version reset pe))
        hndt t ht
    · exact alookup_map_keyed t.partitions (fun pe => pe.partition)
        (fun pe => fetchedOffset resp.version reset pe) (hndp t ht) pe hpe

/-- Witness for C7: a v1 response with a non-retriable first-partition error
aborts with that code, and a clean v5 response decodes both the stored offset
(epoch from the response) and the -1 substitution by the reset offset. -/
theorem fetchOffsets_spec_witness :
    fetchOffsets (fun _ => false) ⟨0, -1⟩
      ⟨1, 0, [⟨"t", [⟨0, 5, 2, 16⟩]⟩]⟩ = Except.error 16 ∧
    (∃ m, fetchOffsets (fun _ => false) ⟨0, -1⟩
        ⟨5, 0, [⟨"t", [⟨0, 5, 2, 0⟩, ⟨1, -1, 2, 0⟩]⟩]⟩ = Except.ok m ∧
      ∀ t ∈ [(⟨"t", [⟨0, 5, 2, 0⟩, ⟨1, -1, 2, 0⟩]⟩ : OffsetFetchResponseTopic)],
        ∀ pe ∈ t.partitions, ∃ ps, alookup t.topic m = some ps ∧
          alookup pe.partition ps = some (fetchedOffset 5 ⟨0, -1⟩ pe)) := by
  constructor
  · exact (fetchOffsets_spec (fun _ => false) ⟨0, -1⟩
      ⟨1, 0, [⟨"t", [⟨0, 5, 2, 16⟩]⟩]⟩).1 ⟨"t", [⟨0, 5, 2, 16⟩]⟩ ⟨0, 5, 2, 16⟩ [] []
      (by decide) rfl rfl (by decide) rfl
  · exact (fetchOffsets_spec (fun _ => false) ⟨0, -1⟩
      ⟨5, 0, [⟨"t", [⟨0, 5, 2, 0⟩, ⟨1, -1, 2, 0⟩]⟩]⟩).2.2
      (by decide) (Or.inl (by decide)) (by decide) (by decide)

/-! ## findNewAssignments (C9) -/

/-- Metadata known about one topic. -/
structure TopicPartitionsData where
  numPartitions : Nat
  isInternal : Bool
deriving DecidableEq, Repr

/-- Pending change for one topic (new subscription or partition growth). -/
structure TopicChange where
  isNew : Bool
  delta : Nat
deriving DecidableEq, Repr

/-- Group state consulted and mutated by findNewAssignments (`usingMap` embeds
the source's `using` field, a reserved word in Lean). -/
structure FindState where
  usingMap : List (String × Nat)
  reSeen : List String
  leader : Bool
deriving DecidableEq, Repr

/-- One step of findNewAssignments over a metadata topic.  An already-used
topic contributes a growth change; an unseen topic in regex mode is first
marked in reSeen, then tested against every configured pattern (first match
wins); literal mode tests set membership.  The accumulator also records which
topics were actually tested against the patterns. -/
def findStep (reMatch : String → String → Bool) (regexTopics : Bool)
    (gtopics : List String)
    (acc : FindState × List String × List (String × TopicChange))
    (tm : String × TopicPartitionsData) :
    FindState × List String × List (String × TopicChange) :=
  let st := acc.1
  let tested := acc.2.1
  let toChange := acc.2.2
  match alookup tm.1 st.usingMap with
  | some used =>
    if tm.2.numPartitions - used > 0 then
      (st, tested, toChange ++ [(tm.1, ⟨false, tm.2.numPartitions - used⟩)])
    else (st, tested, toChange)
  | none =>
    if regexTopics then
      if tm.1 ∈ st.reSeen then (st, tested, toChange)
      else
        let st1 := { st with reSeen := st.reSeen ++ [tm.1] }
        let tested1 := tested ++ [tm.1]
        if gtopics.any fun re => reMatch re tm.1 then
          if tm.2.isInternal then (st1, tested1, toChange)
          else (st1, tested1, toChange ++ [(tm.1, ⟨true, tm.2.numPartitions⟩)])
        else (st1, tested1, toChange)
    else
      if tm.1 ∈ gtopics then
        (st, tested, toChange ++ [(tm.1, ⟨true, tm.2.numPartitions⟩)])
      else (st, tested, toChange)

/-- findNewAssignments: reconcile one metadata update against the group's
using set; returns the updated state, the topics tested against the regex
patterns, whether a rejoin was signaled, and whether the manage loop was
started. -/
def findNewAssignments (reMatch : String → String → Bool) (regexTopics : Bool)
    (gtopics : List String) (st : FindState)
    (meta : List (String × TopicPartitionsData)) :
    FindState × List String × Bool × Bool :=
  let r := meta.foldl (findStep reMatch regexTopics gtopics) (st, [], [])
  let st1 := r.1
  let tested := r.2.1
  let toChange := r.2.2
  if toChange = [] then (st1, tested, false, false)
  else
    let wasManaging := st1.usingMap ≠ []
    let newUsing := toChange.foldl (fun m tc =>
      match alookup tc.1 m with
      | some v => aset tc.1 (v + tc.2.delta) m
      | none => m ++ [(tc.1, tc.2.delta)]) st1.usingMap
    let st2 := { st1 with usingMap := newUsing }
    let numNew := (toChange.filter fun tc => tc.2.isNew).length
    (st2, tested, (numNew > 0 || st1.leader), ¬ wasManaging)

/-- A sequence of metadata updates applied in order, collecting each call's
tested-against-patterns list. -/
def applyMetadataUpdates (reMatch : String → String → Bool) (regexTopics : Bool)
    (gtopics : List String) (st : FindState)
    (updates : List (List (String × TopicPartitionsData))) :
    FindState × List (List String) :=
  updates.foldl (fun acc u =>
    let r := findNewAssignments reMatch regexTopics gtopics acc.1 u
    (r.1, acc.2 ++ [r.2.1])) (st, [])

theorem findStep_usingMap (reMatch : String → String → Bool) (regexTopics : Bool)
    (gtopics : List String) (acc : FindState × List String × List (String × TopicChange))
    (tm : String × TopicPartitionsData) :
    (findStep reMatch regexTopics gtopics acc tm).1.usingMap = acc.1.usingMap := by
  cases halo : alookup tm.1 acc.1.usingMap with
  | some used =>
    by_cases hd : tm.2.numPartitions - used > 0 <;> simp [findStep, halo, hd]
  | none =>
    by_cases hreg : regexTopics <;>
      by_cases hseen : tm.1 ∈ acc.1.reSeen <;>
      by_cases hmatch : (gtopics.any fun re => reMatch re tm.1) <;>
      by_cases hint : tm.2.isInternal <;>
      by_cases hlit : tm.1 ∈ gtopics <;>
      simp [findStep, halo, hreg, hseen, hmatch, hint, hlit]

theorem findStep_reSeen (reMatch : String → String → Bool) (regexTopics : Bool)
    (gtopics : List String) (acc : FindState × List String × List (String × TopicChange))
    (tm : String × TopicPartitionsData) :
    (findStep reMatch regexTopics gtopics acc tm).1.reSeen = acc.1.reSeen ∨
    (findStep reMatch regexTopics gtopics acc tm).1.reSeen = acc.1.reSeen ++ [tm.1] := by
  cases halo : alookup tm.1 acc.1.usingMap with
  | some used =>
    by_cases hd : tm.2.numPartitions - used > 0 <;> simp [findStep, halo, hd]
  | none =>
    by_cases hreg : regexTopics <;>
      by_cases hseen : tm.1 ∈ acc.1.reSeen <;>
      by_cases hmatch : (gtopics.any fun re => reMatch re tm.1) <;>
      by_cases hint : tm.2.isInternal <;>
      by_cases hlit : tm.1 ∈ gtopics <;>
      simp [findStep, halo, hreg, hseen, hmatch, hint, hlit]

theorem findStep_tested (reMatch : String → String → Bool) (regexTopics : Bool)
    (gtopics : List String) (acc : FindState × List String × List (String × TopicChange))
    (tm : String × TopicPartitionsData) :
    (findStep reMatch regexTopics gtopics acc tm).2.1 = acc.2.1 ∨
    (tm.1 ∉ acc.1.reSeen ∧
      (findStep reMatch regexTopics gtopics acc tm).2.1 = acc.2.1 ++ [tm.1]) := by
  cases halo : alookup tm.1 acc.1.usingMap with
  | some used =>
    by_cases hd : tm.2.numPartitions - used > 0 <;> simp [findStep, halo, hd]
  | none =>
    by_cases hreg : regexTopics <;>
      by_cases hseen : tm.1 ∈ acc.1.reSeen <;>
      by_cases hmatch : (gtopics.any fun re => reMatch re tm.1) <;>
      by_cases hint : tm.2.isInternal <;>
      by_cases hlit : tm.1 ∈ gtopics <;>
      simp [findStep, halo, hreg, hseen, hmatch, hint, hlit]

theorem findStep_fresh (reMatch : String → String → Bool)
    (gtopics : List String) (acc : FindState × List String × List (String × TopicChange))
    (tm : String × TopicPartitionsData)
    (halo : alookup tm.1 acc.1.usingMap = none) (hseen : tm.1 ∉ acc.1.reSeen) :
    (findStep reMatch true gtopics acc tm).2.1 = acc.2.1 ++ [tm.1] ∧
    (findStep reMatch true gtopics acc tm).1.reSeen = acc.1.reSeen ++ [tm.1] := by
  by_cases hmatch : (gtopics.any fun re => reMatch re tm.1) <;>
    by_cases hint : tm.2.isInternal <;>
    simp [findStep, halo, hseen, hmatch, hint]

theorem foldl_findStep_usingMap (reMatch : String → String → Bool) (regexTopics : Bool)
    (gtopics : List String) (meta : List (String × TopicPartitionsData)) :
    ∀ acc, (meta.foldl (findStep reMatch regexTopics gtopics) acc).1.usingMap =
      acc.1.usingMap := by
  induction meta with
  | nil => intro acc; rfl
  | cons tm rest ih =>
    intro acc
    rw [List.foldl_cons, ih, findStep_usingMap]

theorem foldl_findStep_reSeen_mono (reMatch : String → String → Bool) (regexTopics : Bool)
    (gtopics : List String) (meta : List (String × TopicPartitionsData)) :
    ∀ acc x, x ∈ acc.1.reSeen →
      x ∈ (meta.foldl (findStep reMatch regexTopics gtopics) acc).1.reSeen := by
  induction meta with
  | nil => intro acc x hx; exact hx
  | cons tm rest ih =>
    intro acc x hx
    rw [List.foldl_cons]
    apply ih
    rcases findStep_reSeen reMatch regexTopics gtopics acc tm with h | h
    · rw [h]; exact hx
    · rw [h]; exact List.mem_append_left _ hx

theorem foldl_findStep_tested_mono (reMatch : String → String → Bool) (regexTopics : Bool)
    (gtopics : List String) (meta : List (String × TopicPartitionsData)) :
    ∀ acc x, x ∈ acc.2.1 →
      x ∈ (meta.foldl (findStep reMatch regexTopics gtopics) acc).2.1 := by
  induction meta with
  | nil => intro acc x hx; exact hx
  | cons tm rest ih =>
    intro acc x hx
    rw [List.foldl_cons]
    apply ih
    rcases findStep_tested reMatch regexTopics gtopics acc tm with h | ⟨_, h⟩
    · rw [h]; exact hx
    · rw [h]; exact List.mem_append_left _ hx

theorem foldl_findStep_not_tested (reMatch : String → String → Bool) (regexTopics : Bool)
    (gtopics : List String) (meta : List (String × TopicPartitionsData)) :
    ∀ acc x, x ∈ acc.1.reSeen → x ∉ acc.2.1 →
      x ∉ (meta.foldl (findStep reMatch regexTopics gtopics) acc).2.1 := by
  induction meta with
  | nil => intro acc x _ hx; exact hx
  | cons tm rest ih =>
    intro acc x hseen hx
    rw [List.foldl_cons]
    apply ih
    · rcases findStep_reSeen reMatch regexTopics gtopics acc tm with h | h
      · rw [h]; exact hseen
      · rw [h]; exact List.mem_append_left _ hseen
    · rcases findStep_tested reMatch regexTopics gtopics acc tm with h | ⟨hns, h⟩
      · rw [h]; exact hx
      · rw [h]
        intro hc
        rcases List.mem_append.mp hc with hc | hc
        · exact hx hc
        · rw [List.mem_singleton] at hc
          exact hns (hc ▸ hseen)

theorem foldl_findStep_marks (reMatch : String → String → Bool) (gtopics : List String)
    (meta : List (String × TopicPartitionsData)) (t : String) (info : TopicPartitionsData) :
    ∀ acc, (t, info) ∈ meta → (meta.map Prod.fst).Nodup →
      alookup t acc.1.usingMap = none → t ∉ acc.1.reSeen →
      t ∈ (meta.foldl (findStep reMatch true gtopics) acc).2.1 ∧
      t ∈ (meta.foldl (findStep reMatch true gtopics) acc).1.reSeen := by
  induction meta with
  | nil =>
    intro acc h
    simp at h
  | cons tm rest ih =>
    intro acc hmem hnd halo hseen
    rw [List.map_cons, List.nodup_cons] at hnd
    rw [List.foldl_cons]
    rcases List.mem_cons.mp hmem with he | hr
    · have htm : tm.1 = t := by rw [← he]
      obtain ⟨ht1, ht2⟩ := findStep_fresh reMatch gtopics acc tm
        (by rw [htm]; exact halo) (by rw [htm]; exact hseen)
      constructor
      · apply foldl_findStep_tested_mono
        rw [ht1, htm]
        exact List.mem_append_right _ (List.mem_singleton_self _)
      · apply foldl_findStep_reSeen_mono
        rw [ht2, htm]
        exact List.mem_append_right _ (List.mem_singleton_self _)
    · have hne : tm.1 ≠ t := by
        intro hc
        apply hnd.1
        rw [hc]
        exact List.mem_map.mpr ⟨(t, info), hr, rfl⟩
      apply ih _ hr hnd.2
      · rw [findStep_usingMap]
        exact halo
      · rcases findStep_reSeen reMatch true gtopics acc tm with h | h
        · rw [h]; exact hseen
        · rw [h]
          intro hc
          rcases List.mem_append.mp hc with hc | hc
          · exact hseen hc
          · rw [List.mem_singleton] at hc
            exact hne hc.symm

theorem findNewAssignments_proj (reMatch : String → String → Bool) (regexTopics : Bool)
    (gtopics : List String) (st : FindState) (meta : List (String × TopicPartitionsData)) :
    (findNewAssignments reMatch regexTopics gtopics st meta).2.1 =
      (meta.foldl (findStep reMatch regexTopics gtopics) (st, [], [])).2.1 ∧
    (findNewAssignments reMatch regexTopics gtopics st meta).1.reSeen =
      (meta.foldl (findStep reMatch regexTopics gtopics) (st, [], [])).1.reSeen := by
  unfold findNewAssignments
  by_cases h : (meta.foldl (findStep reMatch regexTopics gtopics) (st, [], [])).2.2 = [] <;>
    simp [h]

theorem findNewAssignments_no_retest (reMatch : String → String → Bool) (regexTopics : Bool)
    (gtopics : List String) (s : FindState) (meta : List (String × TopicPartitionsData))
    (t : String) (hseen : t ∈ s.reSeen) :
    t ∉ (findNewAssignments reMatch regexTopics gtopics s meta).2.1 ∧
    t ∈ (findNewAssignments reMatch regexTopics gtopics s meta).1.reSeen := by
  obtain ⟨hp1, hp2⟩ := findNewAssignments_proj reMatch regexTopics gtopics s meta
  rw [hp1, hp2]
  constructor
  · exact foldl_findStep_not_tested reMatch regexTopics gtopics meta (s, [], []) t hseen
      (by simp)
  · exact foldl_findStep_reSeen_mono reMatch regexTopics gtopics meta (s, [], []) t hseen

theorem applyMetadataUpdates_no_retest (reMatch : String → String → Bool)
    (regexTopics : Bool) (gtopics : List String)
    (updates : List (List (String × TopicPartitionsData))) :
    ∀ (s : FindState) (acc : List (List String)) (t : String), t ∈ s.reSeen →
      (∀ ts ∈ acc, t ∉ ts) →
      ∀ ts ∈ (updates.foldl (fun acc u =>
        let r := findNewAssignments reMatch regexTopics gtopics acc.1 u
        (r.1, acc.2 ++ [r.2.1])) (s, acc)).2, t ∉ ts := by
  induction updates with
  | nil =>
    intro s acc t _ hacc ts hts
    exact hacc ts hts
  | cons u rest ih =>
    intro s acc t hseen hacc ts hts
    rw [List.foldl_cons] at hts
    obtain ⟨hnot, hkeep⟩ := findNewAssignments_no_retest reMatch regexTopics gtopics s u t hseen
    refine ih _ _ t hkeep ?_ ts hts
    intro ts' hts'
    rcases List.mem_append.mp hts' with h | h
    · exact hacc ts' h
    · rw [List.mem_singleton] at h
      rw [h]
      exact hnot

/-- Claim C9: in regex mode, when findNewAssignments encounters a metadata
topic not already in the using set, it evaluates the configured patterns (the
use decision is first-match over the pattern list) and marks the topic in
reSeen, so that the topic is never retested against the patterns on this or
any later metadata update. -/
theorem findNewAssignments_reSeen_spec (reMatch : String → String → Bool)
    (gtopics : List String) (st : FindState)
    (meta : List (String × TopicPartitionsData)) (t : String)
    (info : TopicPartitionsData)
    (updates : List (List (String × TopicPartitionsData)))
    (hmem : (t, info) ∈ meta) (hnd : (meta.map Prod.fst).Nodup)
    (husing : alookup t st.usingMap = none) (hseen : t ∉ st.reSeen) :
    (t ∈ (findNewAssignments reMatch true gtopics st meta).2.1 ∧
     t ∈ (findNewAssignments reMatch true gtopics st meta).1.reSeen) ∧
    (∀ s : FindState, t ∈ s.reSeen →
      ∀ ts ∈ (applyMetadataUpdates reMatch true gtopics s updates).2, t ∉ ts) := by
  constructor
  · obtain ⟨hp1, hp2⟩ := findNewAssignments_proj reMatch true gtopics st meta
    rw [hp1, hp2]
    exact foldl_findStep_marks reMatch gtopics meta t info (st, [], []) hmem hnd husing hseen
  · intro s hs
    exact applyMetadataUpdates_no_retest reMatch true gtopics updates s [] t hs (by simp)

/-- Witness for C9: a fresh topic "a" matched by the single pattern is tested
and marked, and once marked it is not retested on a subsequent update that
carries it again. -/
theorem findNewAssignments_reSeen_spec_witness :
    ("a" ∈ (findNewAssignments (fun _ _ => true) true ["pat"] ⟨[], [], false⟩
        [("a", ⟨3, false⟩)]).2.1 ∧
     "a" ∈ (findNewAssignments (fun _ _ => true) true ["pat"] ⟨[], [], false⟩
        [("a", ⟨3, false⟩)]).1.reSeen) ∧
    (∀ s : FindState, "a" ∈ s.reSeen →
      ∀ ts ∈ (applyMetadataUpdates (fun _ _ => true) true ["pat"] s
        [[("a", ⟨3, false⟩)]]).2, "a" ∉ ts) :=
  findNewAssignments_reSeen_spec (fun _ _ => true) ["pat"] ⟨[], [], false⟩
    [("a", ⟨3, false⟩)] "a" ⟨3, false⟩ [[("a", ⟨3, false⟩)]]
    (by decide) (by decide) (by decide) (by decide)

/-! ## commit / commitTxn onDone discipline (C6) -/

/-- Observable events of one commit call.  `calledOnDone` carries the request,
the response (when any) and the error (when any); `issuedRequest` is the wire
call. -/
inductive CommitEvent (Req Resp : Type) where
  | calledOnDone (req : Option Req) (resp : Option Resp) (err : Option Nat)
  | issuedRequest (req : Req)
  | updatedLedger
deriving DecidableEq

/-- Outcome of the commit RPC: a response or an opaque error (including
cancellation). -/
inductive RpcOutcome (Resp : Type) where
  | ok (resp : Resp)
  | err (e : Nat)
deriving DecidableEq

/-- Build the request topics from the uncommitted map; every partition carries
the member id as metadata. -/
def buildCommitTopics (uncommitted : List (String × List (Int × EpochOffset)))
    (memberID : String) : List OffsetCommitRequestTopic :=
  uncommitted.map fun tp =>
    ⟨tp.1, tp.2.map fun pe => ⟨pe.1, pe.2.offset, pe.2.epoch, memberID⟩⟩

/-- Zero-valued request (Go `new(kmsg.OffsetCommitRequest)`). -/
def emptyOffsetCommitRequest : OffsetCommitRequest := ⟨"", 0, "", none, []⟩

/-- Zero-valued response (Go `new(kmsg.OffsetCommitResponse)`). -/
def emptyOffsetCommitResponse : OffsetCommitResponse := ⟨[]⟩

/-- Zero-valued transactional request. -/
def emptyTxnOffsetCommitRequest : TxnOffsetCommitRequest := ⟨"", "", 0, 0, []⟩

/-- Zero-valued transactional response. -/
def emptyTxnOffsetCommitResponse : TxnOffsetCommitResponse := ⟨[]⟩

/-- Scheduled work of commit once the RPC outcome is known: issue the request
(only for a non-empty topic list), then either fail onDone with the error or
update the ledger and succeed onDone.  The empty-topics branch is returned
empty: it is unreachable, because commit only schedules this work for a
non-empty uncommitted map, which always yields topics (the Go code would
crash there on a nil type assertion). -/
def commitTask (req : OffsetCommitRequest) (outcome : RpcOutcome OffsetCommitResponse) :
    List (CommitEvent OffsetCommitRequest OffsetCommitResponse) :=
  if req.topics = [] then []
  else
    match outcome with
    | RpcOutcome.err e =>
      [CommitEvent.issuedRequest req, CommitEvent.calledOnDone (some req) none (some e)]
    | RpcOutcome.ok resp =>
      [CommitEvent.issuedRequest req, CommitEvent.updatedLedger,
       CommitEvent.calledOnDone (some req) (some resp) none]

/-- commit (lines 1232-1309), projected to its onDone/wire discipline: an
empty uncommitted map invokes onDone immediately with zero-valued request and
response and no error, issuing nothing; otherwise the scheduled work runs
`commitTask` once the RPC resolves. -/
def commit (gen : Int) (groupID memberID : String) (instanceID : Option String)
    (uncommitted : List (String × List (Int × EpochOffset)))
    (outcome : RpcOutcome OffsetCommitResponse) :
    List (CommitEvent OffsetCommitRequest OffsetCommitResponse) :=
  if uncommitted = [] then
    [CommitEvent.calledOnDone (some emptyOffsetCommitRequest)
      (some emptyOffsetCommitResponse) none]
  else
    commitTask ⟨groupID, gen, memberID, instanceID, buildCommitTopics uncommitted memberID⟩
      outcome

/-- Same scheduled work for commitTxn. -/
def commitTxnTask (req : TxnOffsetCommitRequest)
    (outcome : RpcOutcome TxnOffsetCommitResponse) :
    List (CommitEvent TxnOffsetCommitRequest TxnOffsetCommitResponse) :=
  if req.topics = [] then []
  else
    match outcome with
    | RpcOutcome.err e =>
      [CommitEvent.issuedRequest req, CommitEvent.calledOnDone (some req) none (some e)]
    | RpcOutcome.ok resp =>
      [CommitEvent.issuedRequest req, CommitEvent.updatedLedger,
       CommitEvent.calledOnDone (some req) (some resp) none]

/-- commitTxn (lines 1421-1498), projected the same way. -/
def commitTxn (txnID groupID : String) (producerID producerEpoch : Int) (memberID : String)
    (uncommitted : List (String × List (Int × EpochOffset)))
    (outcome : RpcOutcome TxnOffsetCommitResponse) :
    List (CommitEvent TxnOffsetCommitRequest TxnOffsetCommitResponse) :=
  if uncommitted = [] then
    [CommitEvent.calledOnDone (some emptyTxnOffsetCommitRequest)
      (some emptyTxnOffsetCommitResponse) none]
  else
    commitTxnTask
      ⟨txnID, groupID, producerID, producerEpoch, buildCommitTopics uncommitted memberID⟩
      outcome

/-- Number of onDone invocations among a commit's events. -/
def countOnDone {Req Resp : Type} (events : List (CommitEvent Req Resp)) : Nat :=
  (events.filter fun e =>
    match e with
    | CommitEvent.calledOnDone _ _ _ => true
    | _ => false).length

/-- Claim C6: every call to commit or commitTxn invokes its onDone callback
exactly once, whatever the RPC outcome; with an empty uncommitted argument
onDone is invoked with an empty request, an empty response and no error, and
no wire request is issued (the event list is exactly that one invocation). -/
theorem commit_onDone_exactly_once (gen producerID producerEpoch : Int)
    (groupID memberID txnID : String) (instanceID : Option String)
    (uncommitted : List (String × List (Int × EpochOffset)))
    (outcome : RpcOutcome OffsetCommitResponse)
    (outcomeTxn : RpcOutcome TxnOffsetCommitResponse) :
    countOnDone (commit gen groupID memberID instanceID uncommitted outcome) = 1 ∧
    countOnDone (commitTxn txnID groupID producerID producerEpoch memberID uncommitted
      outcomeTxn) = 1 ∧
    (uncommitted = [] →
      commit gen groupID memberID instanceID uncommitted outcome =
        [CommitEvent.calledOnDone (some emptyOffsetCommitRequest)
          (some emptyOffsetCommitResponse) none] ∧
      commitTxn txnID groupID producerID producerEpoch memberID uncommitted outcomeTxn =
        [CommitEvent.calledOnDone (some emptyTxnOffsetCommitRequest)
          (some emptyTxnOffsetCommitResponse) none]) := by
  refine ⟨?_, ?_, ?_⟩
  · cases huncommitted : uncommitted with
    | nil => rfl
    | cons tp rest =>
      have htop : buildCommitTopics (tp :: rest) memberID ≠ [] := by
        simp [buildCommitTopics]
      unfold commit commitTask
      rw [if_neg (by simp)]
      rw [if_neg htop]
      cases outcome <;> rfl
  · cases huncommitted : uncommitted with
    | nil => rfl
    | cons tp rest =>
      have htop : buildCommitTopics (tp :: rest) memberID ≠ [] := by
        simp [buildCommitTopics]
      unfold commitTxn commitTxnTask
      rw [if_neg (by simp)]
      rw [if_neg htop]
      cases outcomeTxn <;> rfl
  · intro he
    subst he
    exact ⟨rfl, rfl⟩

/-- Witness for C6: the empty-uncommitted path of both commit variants at
concrete arguments invokes onDone once with empty request/response and no
error, with no wire event. -/
theorem commit_onDone_exactly_once_witness :
    countOnDone (commit 4 "g" "m" none [] (RpcOutcome.err 1)) = 1 ∧
    commit 4 "g" "m" none [] (RpcOutcome.err 1) =
      [CommitEvent.calledOnDone (some emptyOffsetCommitRequest)
        (some emptyOffsetCommitResponse) none] ∧
    countOnDone (commit 4 "g" "m" none [("t", [(0, ⟨1, 10⟩)])]
      (RpcOutcome.ok ⟨[⟨"t", [⟨0, 0⟩]⟩]⟩)) = 1 := by
  have h1 := commit_onDone_exactly_once 4 0 0 "g" "m" "tx" none []
    (RpcOutcome.err 1) (RpcOutcome.err 1)
  have h2 := commit_onDone_exactly_once 4 0 0 "g" "m" "tx" none [("t", [(0, ⟨1, 10⟩)])]
    (RpcOutcome.ok ⟨[⟨"t", [⟨0, 0⟩]⟩]⟩) (RpcOutcome.err 1)
  exact ⟨h1.1, (h1.2.2 rfl).1, h2.1⟩

/-! ## commit pipeline ordering (C2) -/

/-- The group's commit-pipeline handles: cancel handle and completion signal
of the in-flight commit, identified by fresh channel ids. -/
structure CommitHandles where
  commitCancel : Option Nat
  commitDone : Option Nat
deriving DecidableEq, Repr

/-- One scheduled commit: its own cancel and done channel ids and the prior
completion signal it must await. -/
structure CommitTask where
  cancelId : Nat
  doneId : Nat
  awaits : Option Nat
deriving DecidableEq, Repr

/-- What one call to commit does synchronously. -/
structure CommitSyncResult where
  canceledPrior : Option Nat
  priorDone : Option Nat
  handles : CommitHandles
  task : CommitTask
deriving DecidableEq, Repr

/-- Synchronous prologue of commit (lines 1245-1279): cancel any in-flight
commit, record the prior completion signal, install fresh cancel/completion
handles, and schedule work that first awaits the prior completion signal. -/
def commitPipelineStep (s : CommitHandles) (cancelId doneId : Nat) : CommitSyncResult :=
  ⟨s.commitCancel, s.commitDone, ⟨some cancelId, some doneId⟩,
   ⟨cancelId, doneId, s.commitDone⟩⟩

/-- Instructions of a scheduled commit goroutine. -/
inductive CInstr where
  | waitDone (ch : Nat)
  | issueReq
  | updateLedger
  | closeDone (ch : Nat)
deriving DecidableEq, Repr

/-- The scheduled goroutine of one commit: wait for the prior commit's done
channel when there is one, issue the request, update the ledger only on
success, and close the own done channel last (the deferred close runs on
both the success and the error/cancellation path). -/
def taskProgram (t : CommitTask) (succeeds : Bool) : List CInstr :=
  (match t.awaits with
   | some ch => [CInstr.waitDone ch]
   | none => []) ++
  [CInstr.issueReq] ++
  (if succeeds then [CInstr.updateLedger] else []) ++
  [CInstr.closeDone t.doneId]

/-- Observable events of the interleaved execution. -/
inductive CEvent where
  | issued (tid : Nat)
  | ledgerUpdated (tid : Nat)
  | doneClosed (ch : Nat)
deriving DecidableEq, Repr

/-- Configuration of the two scheduled commits: remaining code of each, the
set of closed channels, and the event trace so far. -/
structure TwoTasks where
  rem1 : List CInstr
  rem2 : List CInstr
  closed : List Nat
  trace : List CEvent
deriving DecidableEq, Repr

/-- One instruction of task `tid`: a wait fires only once its channel is
closed (channel close is the only way a receive on a done channel returns);
the other instructions append their event. -/
inductive InstrStep (tid : Nat) :
    List Nat → List CInstr → List Nat → List CInstr → List CEvent → Prop where
  | wait {closed k ch} : ch ∈ closed →
      InstrStep tid closed (CInstr.waitDone ch :: k) closed k []
  | issue {closed k} :
      InstrStep tid closed (CInstr.issueReq :: k) closed k [CEvent.issued tid]
  | upd {closed k} :
      InstrStep tid closed (CInstr.updateLedger :: k) closed k [CEvent.ledgerUpdated tid]
  | close {closed k ch} :
      InstrStep tid closed (CInstr.closeDone ch :: k) (ch :: closed) k [CEvent.doneClosed ch]

/-- Interleaving step: either scheduled commit runs its next instruction. -/
inductive TStep : TwoTasks → TwoTasks → Prop where
  | left {c : TwoTasks} {rem1' closed' evs} :
      InstrStep 1 c.closed c.rem1 closed' rem1' evs →
      TStep c ⟨rem1', c.rem2, closed', c.trace ++ evs⟩
  | right {c : TwoTasks} {rem2' closed' evs} :
      InstrStep 2 c.closed c.rem2 closed' rem2' evs →
      TStep c ⟨c.rem1, rem2', closed', c.trace ++ evs⟩

/-- Reachability of configurations. -/
def Reachable : TwoTasks → TwoTasks → Prop := Relation.ReflTransGen TStep

/-- Initial configuration: both scheduled commits at the start, no channel
closed, empty trace. -/
def initTasks (t1 t2 : CommitTask) (b1 b2 : Bool) : TwoTasks :=
  ⟨taskProgram t1 b1, taskProgram t2 b2, [], []⟩

/-- Invariant tying the second task's progress to the first task's completion
signal `d1`: a closed `d1` is recorded in the trace, the second task can only
have moved once `d1` was closed, and every ledger update of task 2 is
preceded in the trace by the close of `d1`. -/
def PipelineInv (d1 : Nat) (full2 : List CInstr) (c : TwoTasks) : Prop :=
  (d1 ∈ c.closed → CEvent.doneClosed d1 ∈ c.trace) ∧
  (c.rem2 ≠ full2 → CEvent.doneClosed d1 ∈ c.trace) ∧
  (∀ j : Nat, c.trace[j]? = some (CEvent.ledgerUpdated 2) →
    ∃ i, i < j ∧ c.trace[i]? = some (CEvent.doneClosed d1))

theorem mem_exists_getElem? {α : Type} {a : α} {l : List α} (h : a ∈ l) :
    ∃ i, i < l.length ∧ l[i]? = some a := by
  obtain ⟨i, hi⟩ := List.mem_iff_getElem?.mp h
  refine ⟨i, ?_, hi⟩
  by_contra hlt
  rw [List.getElem?_eq_none (le_of_not_lt hlt)] at hi
  cases hi

theorem inv3_append_other (tr : List CEvent) (d1 : Nat) (e : CEvent)
    (h3 : ∀ j : Nat, tr[j]? = some (CEvent.ledgerUpdated 2) →
      ∃ i, i < j ∧ tr[i]? = some (CEvent.doneClosed d1))
    (hne : e ≠ CEvent.ledgerUpdated 2) :
    ∀ j : Nat, (tr ++ [e])[j]? = some (CEvent.ledgerUpdated 2) →
      ∃ i, i < j ∧ (tr ++ [e])[i]? = some (CEvent.doneClosed d1) := by
  intro j hj
  by_cases hlt : j < tr.length
  · rw [List.getElem?_append, if_pos hlt] at hj
    obtain ⟨i, hij, hi⟩ := h3 j hj
    exact ⟨i, hij, by rw [List.getElem?_append, if_pos (lt_trans hij hlt)]; exact hi⟩
  · rw [List.getElem?_append, if_neg hlt] at hj
    exfalso
    apply hne
    rcases hje : j - tr.length with _ | k
    · rw [hje] at hj
      simpa using hj
    · rw [hje] at hj
      simp at hj

theorem inv3_append_upd (tr : List CEvent) (d1 : Nat)
    (h3 : ∀ j : Nat, tr[j]? = some (CEvent.ledgerUpdated 2) →
      ∃ i, i < j ∧ tr[i]? = some (CEvent.doneClosed d1))
    (hdone : CEvent.doneClosed d1 ∈ tr) :
    ∀ j : Nat, (tr ++ [CEvent.ledgerUpdated 2])[j]? = some (CEvent.ledgerUpdated 2) →
      ∃ i, i < j ∧ (tr ++ [CEvent.ledgerUpdated 2])[i]? = some (CEvent.doneClosed d1) := by
  intro j hj
  by_cases hlt : j < tr.length
  · rw [List.getElem?_append, if_pos hlt] at hj
    obtain ⟨i, hij, hi⟩ := h3 j hj
    exact ⟨i, hij, by rw [List.getElem?_append, if_pos (lt_trans hij hlt)]; exact hi⟩
  · obtain ⟨i, hilen, hi⟩ := mem_exists_getElem? hdone
    exact ⟨i, lt_of_lt_of_le hilen (le_of_not_lt hlt),
      by rw [List.getElem?_append, if_pos hilen]; exact hi⟩

theorem pipelineInv_step {d1 : Nat} {k0 : List CInstr} {c c' : TwoTasks}
    (hstep : TStep c c')
    (hinv : PipelineInv d1 (CInstr.waitDone d1 :: k0) c) :
    PipelineInv d1 (CInstr.waitDone d1 :: k0) c' := by
  obtain ⟨rem1, rem2, closed, trace⟩ := c
  obtain ⟨h1, h2, h3⟩ := hinv
  cases hstep with
  | left hins =>
    cases hins with
    | wait hch =>
      exact ⟨fun hd => by simpa using h1 hd, fun hr => by simpa using h2 hr, by simpa using h3⟩
    | issue =>
      exact ⟨fun hd => List.mem_append_left _ (h1 hd),
        fun hr => List.mem_append_left _ (h2 hr),
        inv3_append_other trace d1 _ h3 (by decide)⟩
    | upd =>
      exact ⟨fun hd => List.mem_append_left _ (h1 hd),
        fun hr => List.mem_append_left _ (h2 hr),
        inv3_append_other trace d1 _ h3 (by decide)⟩
    | close =>
      refine ⟨?_, fun hr => List.mem_append_left _ (h2 hr),
        inv3_append_other trace d1 _ h3 (by simp)⟩
      intro hd
      rcases List.mem_cons.mp hd with he | hd'
      · rw [he]
        exact List.mem_append_right _ (List.mem_singleton_self _)
      · exact List.mem_append_left _ (h1 hd')
  | right hins =>
    cases hins with
    | wait hch =>
      rename_i k ch
      refine ⟨fun hd => by simpa using h1 hd, ?_, by simpa using h3⟩
      intro _
      by_cases hfull : CInstr.waitDone ch :: k = CInstr.waitDone d1 :: k0
      · have hcd : ch = d1 := by
          injection hfull with hh _
          injection hh
        rw [hcd] at hch
        simpa using h1 hch
      · simpa using h2 hfull
    | issue =>
      refine ⟨fun hd => List.mem_append_left _ (h1 hd), ?_,
        inv3_append_other trace d1 _ h3 (by decide)⟩
      intro _
      exact List.mem_append_left _ (h2 (by simp))
    | upd =>
      have hdone : CEvent.doneClosed d1 ∈ trace := h2 (by simp)
      exact ⟨fun hd => List.mem_append_left _ (h1 hd),
        fun _ => List.mem_append_left _ hdone,
        inv3_append_upd trace d1 h3 hdone⟩
    | close =>
      refine ⟨?_, fun _ => List.mem_append_left _ (h2 (by simp)),
        inv3_append_other trace d1 _ h3 (by simp)⟩
      intro hd
      rcases List.mem_cons.mp hd with he | hd'
      · rw [he]
        exact List.mem_append_right _ (List.mem_singleton_self _)
      · exact List.mem_append_left _ (h1 hd')

theorem pipelineInv_reachable {d1 : Nat} {k0 : List CInstr} {t1 t2 : CommitTask}
    {b1 b2 : Bool} (ht2 : taskProgram t2 b2 = CInstr.waitDone d1 :: k0)
    {c : TwoTasks} (h : Reachable (initTasks t1 t2 b1 b2) c) :
    PipelineInv d1 (CInstr.waitDone d1 :: k0) c := by
  induction h with
  | refl =>
    refine ⟨?_, ?_, ?_⟩
    · intro hd
      simp [initTasks] at hd
    · intro hr
      exact absurd ht2 hr
    · intro j hj
      simp [initTasks] at hj
  | tail hsteps hstep ih =>
    exact pipelineInv_step hstep ih

/-- Claim C2: for two commits submitted sequentially in the same group
session, the later commit cancels the in-flight commit's cancel handle,
records the prior completion signal, installs its own cancel/completion
handles, and its scheduled work awaits the prior completion signal; hence in
every reachable interleaving of the two scheduled goroutines, the second
commit's ledger update appears in the trace only after the first commit's
done channel was closed — which happens only once the first commit completed
or was cancelled. -/
theorem commit_pipeline_ordering (s0 : CommitHandles) (c1 d1 c2 d2 : Nat) (b1 b2 : Bool)
    (c : TwoTasks)
    (hreach : Reachable
      (initTasks (commitPipelineStep s0 c1 d1).task
        (commitPipelineStep (commitPipelineStep s0 c1 d1).handles c2 d2).task b1 b2) c) :
    (commitPipelineStep (commitPipelineStep s0 c1 d1).handles c2 d2).canceledPrior =
      some c1 ∧
    (commitPipelineStep (commitPipelineStep s0 c1 d1).handles c2 d2).priorDone = some d1 ∧
    (commitPipelineStep (commitPipelineStep s0 c1 d1).handles c2 d2).handles =
      ⟨some c2, some d2⟩ ∧
    (commitPipelineStep (commitPipelineStep s0 c1 d1).handles c2 d2).task.awaits =
      some d1 ∧
    ∀ j : Nat, c.trace[j]? = some (CEvent.ledgerUpdated 2) →
      ∃ i, i < j ∧ c.trace[i]? = some (CEvent.doneClosed d1) := by
  refine ⟨rfl, rfl, rfl, rfl, ?_⟩
  have ht2 : taskProgram
      (commitPipelineStep (commitPipelineStep s0 c1 d1).handles c2 d2).task b2 =
      CInstr.waitDone d1 ::
        ([CInstr.issueReq] ++ (if b2 then [CInstr.updateLedger] else []) ++
          [CInstr.closeDone d2]) := by
    simp [taskProgram, commitPipelineStep]
  exact (pipelineInv_reachable ht2 hreach).2.2

/-- Witness for C2: the two pipeline steps at concrete channel ids, with the
trivially reachable initial configuration. -/
theorem commit_pipeline_ordering_witness :
    (commitPipelineStep (commitPipelineStep ⟨none, none⟩ 1 2).handles 3 4).canceledPrior =
      some 1 ∧
    (commitPipelineStep (commitPipelineStep ⟨none, none⟩ 1 2).handles 3 4).priorDone =
      some 2 ∧
    (commitPipelineStep (commitPipelineStep ⟨none, none⟩ 1 2).handles 3 4).task.awaits =
      some 2 := by
  have h := commit_pipeline_ordering ⟨none, none⟩ 1 2 3 4 true true
    (initTasks (commitPipelineStep ⟨none, none⟩ 1 2).task
      (commitPipelineStep (commitPipelineStep ⟨none, none⟩ 1 2).handles 3 4).task true true)
    Relation.ReflTransGen.refl
  exact ⟨h.1, h.2.1, h.2.2.2.1⟩

end Kgo
